import Mathlib

/-!
Verification of the Plonky3 KoalaBear Poseidon2 diffusion layer and the
generic coset-MDS permutation.

The development shallowly embeds the two source files:
* `koala-bear/src/poseidon2.rs` — the width-16/24 diagonal diffusion
  multiplier `permute_mut`, its shift tables, and the external-layer shape
  adapters `to_internal_rep` / `to_output_rep`;
* `mds/src/coset_mds.rs` — the `CosetMds` constructor and `permute_mut`
  (Bowers G / G^T butterfly networks plus coset rescale).

Field elements are represented by their stored (Montgomery-domain) values as
natural numbers in `[0, P)` for the KoalaBear part, and by elements of an
abstract commutative ring (instantiated at `ZMod 17`, a two-adic field with
2-adicity 4 and multiplicative generator 3) for the generic MDS part.
External collaborators that are part of the repository but not among the
provided sources (the Montgomery reduction, field negation, the butterfly
primitives, `log2_strict_usize`, `reverse_slice_index_bits`, and the
two-adic-field interface) are modelled from the specification, as marked on
each definition.
-/

namespace Plonky3

/-! ### KoalaBear field model -/

/-- The KoalaBear prime `p = 2^31 - 2^24 + 1`. -/
def P : ℕ := 2130706433

/-- The Montgomery radix `R = 2^32` used by the 32-bit KoalaBear backend. -/
def R32 : ℕ := 2 ^ 32

/-- The inverse of the Montgomery radix modulo `P`. -/
def RINV : ℕ := 1057030144

theorem RINV_mul_radix : RINV * R32 % P = 1 := by decide

/-- Modelled from the spec: the external Montgomery reduction over 64-bit
accumulators (supplied by the base-field module, not among the sources).
Contract: `reduce(x) ≡ x · R⁻¹ (mod p)` with a result in `[0, p)`, valid for
`0 ≤ x < 2^64`. -/
def monty_reduce (x : ℕ) : ℕ := x * RINV % P

/-- Modelled from the spec: field negation on stored values, returning the
canonical representative in `[0, p)`. -/
def kbNeg (x : ℕ) : ℕ := (P - x) % P

/-- Shift table for width 16 (`POSEIDON2_INTERNAL_MATRIX_DIAG_16_MONTY_SHIFTS`). -/
def shifts16 : List ℕ := [0, 1, 2, 3, 4, 5, 6, 7, 8, 9, 10, 11, 12, 13, 15]

/-- Shift table for width 24 (`POSEIDON2_INTERNAL_MATRIX_DIAG_24_MONTY_SHIFTS`). -/
def shifts24 : List ℕ :=
  [0, 1, 2, 3, 4, 5, 6, 7, 8, 9, 10, 11, 12, 13, 14, 15, 16, 17, 18, 19, 20, 21, 23]

/-- The 64-bit accumulator `part_sum`: sum of the stored values of all state
entries except index 0 (`state.iter().skip(1).map(|x| x.value as u64).sum()`). -/
def part_sum (s : List ℕ) : ℕ := (s.drop 1).sum

/-- The 64-bit accumulator `full_sum = part_sum + state[0].value`. -/
def full_sum (s : List ℕ) : ℕ := part_sum s + s.getD 0 0

/-- The accumulator passed to the reduction for index 0:
`part_sum + (-state[0]).value`. -/
def s0_acc (s : List ℕ) : ℕ := part_sum s + kbNeg (s.getD 0 0)

/-- The accumulator passed to the reduction for index `i ≥ 1`:
`full_sum + ((state[i].value as u64) << shifts[i - 1])`. -/
def si_acc (s : List ℕ) (shifts : List ℕ) (i : ℕ) : ℕ :=
  full_sum s + s.getD i 0 * 2 ^ shifts.getD (i - 1) 0

/-- The diagonal diffusion `permute_mut` of `koala-bear/src/poseidon2.rs`,
as a function on the list of stored values.  In the source the state is
mutated in place, but every accumulator is computed from the pre-call values
(`part_sum`/`full_sum` are read before any write, and entry `i ≥ 1` is
overwritten only after being read), so the in-place loop computes exactly
this map. -/
def permuteMutKB (s : List ℕ) (shifts : List ℕ) : List ℕ :=
  (List.range s.length).map fun i =>
    if i = 0 then monty_reduce (s0_acc s) else monty_reduce (si_acc s shifts i)

/-- The diagonal `v` of the diffusion matrix `I + diag(v)`, as stored values:
`v[0] = p - 2` and `v[i] = 2^shift[i-1]` for `i ≥ 1`. -/
def diagEntries (shifts : List ℕ) : List ℕ := (P - 2) :: shifts.map (2 ^ ·)

/-- Entry `(i, j)` of the dense matrix `I + diag(v)` (stored values). -/
def matEntry (shifts : List ℕ) (i j : ℕ) : ℕ :=
  if i = j then 1 + (diagEntries shifts).getD i 0 else 1

/-- General field multiplication on stored Montgomery-domain values:
`x ⊗ y = reduce(x · y)`. -/
def montyMul (x y : ℕ) : ℕ := monty_reduce (x * y)

/-- Naive reference: multiply the state by the explicit dense matrix
`I + diag(v)` using general field multiplication, reducing each row sum to its
canonical representative. -/
def naiveMatMul (s : List ℕ) (shifts : List ℕ) : List ℕ :=
  (List.range s.length).map fun i =>
    (∑ j : Fin s.length, montyMul (matEntry shifts i j) (s.getD j 0)) % P

theorem P_pos : 0 < P := by decide

/-- A list's sum is the sum of its `getD` values over its index range. -/
theorem list_sum_eq_fin_sum (s : List ℕ) : s.sum = ∑ j : Fin s.length, s.getD j 0 := by
  induction s with
  | nil => simp
  | cons a t ih =>
      rw [List.sum_cons, ih, show (a :: t).length = t.length + 1 from rfl,
        Fin.sum_univ_succ]
      simp

theorem full_sum_eq_fin_sum (s : List ℕ) (hs : s ≠ []) :
    full_sum s = ∑ j : Fin s.length, s.getD j 0 := by
  cases s with
  | nil => exact absurd rfl hs
  | cons a t =>
      rw [← list_sum_eq_fin_sum]
      simp [full_sum, part_sum, Nat.add_comm]

theorem kbNeg_cast (x : ℕ) (hx : x < P) : ((kbNeg x : ℕ) : ZMod P) = -(x : ZMod P) := by
  rw [kbNeg, ZMod.natCast_mod, Nat.cast_sub hx.le, ZMod.natCast_self]
  ring

/-- The matrix `I + diag(v)` decomposed as all-ones plus the diagonal. -/
theorem matEntry_decomp (shifts : List ℕ) (i j : ℕ) :
    matEntry shifts i j = 1 + (if i = j then (diagEntries shifts).getD i 0 else 0) := by
  unfold matEntry
  split <;> omega

/-- Cast of a row of the naive reference product to the field. -/
theorem naive_entry_cast (s shifts : List ℕ) (i : ℕ) (hi : i < s.length) :
    ((∑ j : Fin s.length, montyMul (matEntry shifts i j) (s.getD j 0) : ℕ) : ZMod P)
      = ((∑ j : Fin s.length, (s.getD j 0 : ZMod P))
          + ((diagEntries shifts).getD i 0 : ZMod P) * (s.getD i 0 : ZMod P))
          * (RINV : ZMod P) := by
  rw [Nat.cast_sum]
  have hterm : ∀ j : Fin s.length,
      ((montyMul (matEntry shifts i j) (s.getD j 0) : ℕ) : ZMod P)
        = (s.getD j 0 : ZMod P) * (RINV : ZMod P)
          + (if (⟨i, hi⟩ : Fin s.length) = j then
              ((diagEntries shifts).getD i 0 : ZMod P) * (s.getD (j : ℕ) 0 : ZMod P)
                * (RINV : ZMod P) else 0) := by
    intro j
    rw [montyMul, monty_reduce, ZMod.natCast_mod, matEntry_decomp]
    by_cases h : i = (j : ℕ)
    · rw [if_pos h, if_pos (Fin.ext h)]
      push_cast
      ring
    · rw [if_neg h, if_neg fun hh => h (congrArg Fin.val hh)]
      push_cast
      ring
  rw [Finset.sum_congr rfl fun j _ => hterm j, Finset.sum_add_distrib,
    Fintype.sum_ite_eq, add_mul, Finset.sum_mul]

theorem getD_mem_of_lt (s : List ℕ) (i : ℕ) (hi : i < s.length) : s.getD i 0 ∈ s := by
  rw [List.getD_eq_getElem s 0 hi]
  exact List.getElem_mem hi

theorem diag0_cast : (((P - 2 : ℕ)) : ZMod P) = -2 := by
  rw [Nat.cast_sub (by decide), ZMod.natCast_self]
  ring

/-- Casting the full-sum accumulator to the field gives the sum of the cast
state entries. -/
theorem full_sum_cast (s : List ℕ) (hs : s ≠ []) :
    ((full_sum s : ℕ) : ZMod P) = ∑ j : Fin s.length, (s.getD j 0 : ZMod P) := by
  rw [full_sum_eq_fin_sum s hs, Nat.cast_sum]

/-- Key equivalence for claim C1: the shift-based diffusion multiply agrees
with the naive dense matrix-vector product, row by row, bit-exactly. -/
theorem permuteMut_eq_naive (s shifts : List ℕ) (hlen : s.length = shifts.length + 1)
    (hval : ∀ x ∈ s, x < P) :
    permuteMutKB s shifts = naiveMatMul s shifts := by
  have hs0 : s ≠ [] := by
    intro h
    rw [h] at hlen
    simp at hlen
  have hfull : ((part_sum s : ℕ) : ZMod P) + ((s.getD 0 0 : ℕ) : ZMod P)
      = ∑ j : Fin s.length, (s.getD j 0 : ZMod P) := by
    rw [← full_sum_cast s hs0, full_sum]
    push_cast
    ring
  refine List.map_congr_left fun i hi => ?_
  rw [List.mem_range] at hi
  by_cases h0 : i = 0
  · subst h0
    rw [if_pos rfl, monty_reduce]
    apply (ZMod.natCast_eq_natCast_iff' _ _ _).mp
    push_cast [naive_entry_cast s shifts 0 hi]
    rw [s0_acc]
    push_cast [kbNeg_cast _ (hval _ (getD_mem_of_lt s 0 hi))]
    have hd : (diagEntries shifts).getD 0 0 = P - 2 := rfl
    rw [hd, diag0_cast]
    linear_combination (RINV : ZMod P) * hfull
  · rw [if_neg h0, monty_reduce]
    apply (ZMod.natCast_eq_natCast_iff' _ _ _).mp
    push_cast [naive_entry_cast s shifts i hi]
    obtain ⟨k, rfl⟩ : ∃ k, i = k + 1 := ⟨i - 1, by omega⟩
    have hk : k < shifts.length := by omega
    have hd : (diagEntries shifts).getD (k + 1) 0 = 2 ^ shifts.getD k 0 := by
      rw [diagEntries, List.getD_cons_succ, List.getD_eq_getElem _ 0 (by simpa using hk),
        List.getElem_map, List.getD_eq_getElem _ 0 hk]
    rw [si_acc]
    push_cast [hd]
    have hacc : ((full_sum s : ℕ) : ZMod P) = ∑ j : Fin s.length, (s.getD j 0 : ZMod P) :=
      full_sum_cast s hs0
    linear_combination (RINV : ZMod P) * hacc

/-- C1: for both supported widths, with the width's shift table, the diagonal
diffusion `permute_mut` on a state of canonical stored values computes exactly
the naive dense matrix-vector product by `I + diag(v)` (with `v[0] = p - 2`
and `v[i] = 2^shift[i-1]`) under general field multiplication. -/
theorem claim_C1_diffusion_matches_naive (s : List ℕ) (hval : ∀ x ∈ s, x < P) :
    (s.length = 16 → permuteMutKB s shifts16 = naiveMatMul s shifts16)
      ∧ (s.length = 24 → permuteMutKB s shifts24 = naiveMatMul s shifts24) :=
  ⟨fun h => permuteMut_eq_naive s shifts16 (by rw [h]; rfl) hval,
   fun h => permuteMut_eq_naive s shifts24 (by rw [h]; rfl) hval⟩

theorem claim_C1_witness :
    permuteMutKB [1, 2, 3, 4, 5, 6, 7, 8, 9, 10, 11, 12, 13, 14, 15, 16] shifts16
        = naiveMatMul [1, 2, 3, 4, 5, 6, 7, 8, 9, 10, 11, 12, 13, 14, 15, 16] shifts16
      ∧ permuteMutKB
          [1, 2, 3, 4, 5, 6, 7, 8, 9, 10, 11, 12,
            13, 14, 15, 16, 17, 18, 19, 20, 21, 22, 23, 24] shifts24
        = naiveMatMul
          [1, 2, 3, 4, 5, 6, 7, 8, 9, 10, 11, 12,
            13, 14, 15, 16, 17, 18, 19, 20, 21, 22, 23, 24] shifts24 :=
  ⟨(claim_C1_diffusion_matches_naive _ (by decide)).1 rfl,
   (claim_C1_diffusion_matches_naive _ (by decide)).2 rfl⟩

/-- C9: every value written by the diffusion `permute_mut` is a reduction
result, hence lies in the canonical range `[0, p)`. -/
theorem claim_C9_canonical_range (s shifts : List ℕ) (hval : ∀ x ∈ s, x < P) :
    ∀ y ∈ permuteMutKB s shifts, y < P := by
  intro y hy
  rw [permuteMutKB, List.mem_map] at hy
  obtain ⟨i, _, rfl⟩ := hy
  by_cases h : i = 0
  · rw [if_pos h, monty_reduce]
    exact Nat.mod_lt _ P_pos
  · rw [if_neg h, monty_reduce]
    exact Nat.mod_lt _ P_pos

theorem claim_C9_witness :
    (permuteMutKB [3, 4, 5] shifts16).getD 0 0 < P :=
  claim_C9_canonical_range [3, 4, 5] shifts16 (by decide) _ (by decide)

theorem getD_le_of_val_lt (s : List ℕ) (i : ℕ) (hval : ∀ x ∈ s, x < P) :
    s.getD i 0 ≤ P - 1 := by
  by_cases hi : i < s.length
  · have := hval _ (getD_mem_of_lt s i hi)
    omega
  · rw [List.getD_eq_default _ _ (by omega)]
    omega

theorem part_sum_le (s : List ℕ) (hval : ∀ x ∈ s, x < P) :
    part_sum s ≤ (s.length - 1) * (P - 1) := by
  have h := List.sum_le_card_nsmul (s.drop 1) (P - 1)
    (fun x hx => by have := hval x (List.drop_subset 1 s hx); omega)
  rw [smul_eq_mul] at h
  calc part_sum s ≤ (s.drop 1).length * (P - 1) := h
    _ = (s.length - 1) * (P - 1) := by rw [List.length_drop]

theorem full_sum_le (s : List ℕ) (hs : s.length ≠ 0) (hval : ∀ x ∈ s, x < P) :
    full_sum s ≤ s.length * (P - 1) := by
  have h1 := part_sum_le s hval
  have h2 := getD_le_of_val_lt s 0 hval
  have : s.length - 1 + 1 = s.length := by omega
  calc full_sum s ≤ (s.length - 1) * (P - 1) + (P - 1) := Nat.add_le_add h1 h2
    _ = (s.length - 1 + 1) * (P - 1) := by ring
    _ = s.length * (P - 1) := by rw [this]

theorem s0_acc_le (s : List ℕ) (hs : s.length ≠ 0) (hval : ∀ x ∈ s, x < P) :
    s0_acc s ≤ s.length * (P - 1) := by
  have h1 := part_sum_le s hval
  have h2 : kbNeg (s.getD 0 0) ≤ P - 1 := by
    have := Nat.mod_lt (P - s.getD 0 0) P_pos
    rw [kbNeg]
    omega
  have : s.length - 1 + 1 = s.length := by omega
  calc s0_acc s ≤ (s.length - 1) * (P - 1) + (P - 1) := Nat.add_le_add h1 h2
    _ = (s.length - 1 + 1) * (P - 1) := by ring
    _ = s.length * (P - 1) := by rw [this]

theorem si_acc_le (s shifts : List ℕ) (i : ℕ) (hs : s.length ≠ 0)
    (hval : ∀ x ∈ s, x < P) :
    si_acc s shifts i ≤ s.length * (P - 1) + (P - 1) * 2 ^ shifts.getD (i - 1) 0 := by
  have h1 := full_sum_le s hs hval
  have h2 := getD_le_of_val_lt s i hval
  have h3 : s.getD i 0 * 2 ^ shifts.getD (i - 1) 0
      ≤ (P - 1) * 2 ^ shifts.getD (i - 1) 0 :=
    Nat.mul_le_mul_right _ h2
  exact Nat.add_le_add h1 h3

/-- C4 (amended): on canonical inputs every accumulator handed to the
reduction stays below `2^64`; the index-0 accumulator is bounded by
`N * (p - 1)`, while the shifted accumulators obey the larger bound
`N * (p - 1) + (p - 1) * 2^shift[i-1]`, still below `2^64`. -/
theorem claim_C4_amended_acc_bounds (s : List ℕ) (hval : ∀ x ∈ s, x < P) :
    (s.length = 16 →
      s0_acc s ≤ 16 * (P - 1) ∧ s0_acc s < 2 ^ 64
        ∧ ∀ i, 1 ≤ i → i < 16 →
            si_acc s shifts16 i ≤ 16 * (P - 1) + (P - 1) * 2 ^ shifts16.getD (i - 1) 0
              ∧ si_acc s shifts16 i < 2 ^ 64)
      ∧ (s.length = 24 →
        s0_acc s ≤ 24 * (P - 1) ∧ s0_acc s < 2 ^ 64
          ∧ ∀ i, 1 ≤ i → i < 24 →
              si_acc s shifts24 i ≤ 24 * (P - 1) + (P - 1) * 2 ^ shifts24.getD (i - 1) 0
                ∧ si_acc s shifts24 i < 2 ^ 64) := by
  constructor
  · intro h16
    have hs : s.length ≠ 0 := by omega
    have h0 := s0_acc_le s hs hval
    rw [h16] at h0
    refine ⟨h0, by have := P_pos; unfold P at *; omega, fun i h1 h2 => ?_⟩
    have hb := si_acc_le s shifts16 i hs hval
    rw [h16] at hb
    have hsh : shifts16.getD (i - 1) 0 ≤ 15 := by
      have : ∀ j, j < 16 → shifts16.getD (j - 1) 0 ≤ 15 := by decide
      exact this i h2
    have hpow : (2 : ℕ) ^ shifts16.getD (i - 1) 0 ≤ 2 ^ 15 :=
      Nat.pow_le_pow_right (by omega) hsh
    refine ⟨hb, lt_of_le_of_lt hb ?_⟩
    have : 16 * (P - 1) + (P - 1) * 2 ^ shifts16.getD (i - 1) 0
        ≤ 16 * (P - 1) + (P - 1) * 2 ^ 15 :=
      Nat.add_le_add_left (Nat.mul_le_mul_left _ hpow) _
    have hnum : 16 * (P - 1) + (P - 1) * 2 ^ 15 < 2 ^ 64 := by unfold P; omega
    omega
  · intro h24
    have hs : s.length ≠ 0 := by omega
    have h0 := s0_acc_le s hs hval
    rw [h24] at h0
    refine ⟨h0, by have := P_pos; unfold P at *; omega, fun i h1 h2 => ?_⟩
    have hb := si_acc_le s shifts24 i hs hval
    rw [h24] at hb
    have hsh : shifts24.getD (i - 1) 0 ≤ 23 := by
      have : ∀ j, j < 24 → shifts24.getD (j - 1) 0 ≤ 23 := by decide
      exact this i h2
    have hpow : (2 : ℕ) ^ shifts24.getD (i - 1) 0 ≤ 2 ^ 23 :=
      Nat.pow_le_pow_right (by omega) hsh
    refine ⟨hb, lt_of_le_of_lt hb ?_⟩
    have : 24 * (P - 1) + (P - 1) * 2 ^ shifts24.getD (i - 1) 0
        ≤ 24 * (P - 1) + (P - 1) * 2 ^ 23 :=
      Nat.add_le_add_left (Nat.mul_le_mul_left _ hpow) _
    have hnum : 24 * (P - 1) + (P - 1) * 2 ^ 23 < 2 ^ 64 := by unfold P; omega
    omega

theorem claim_C4_witness :
    s0_acc (List.replicate 16 5) ≤ 16 * (P - 1)
      ∧ si_acc (List.replicate 16 5) shifts16 3
          ≤ 16 * (P - 1) + (P - 1) * 2 ^ shifts16.getD 2 0
      ∧ si_acc (List.replicate 16 5) shifts16 3 < 2 ^ 64 := by
  have h := (claim_C4_amended_acc_bounds (List.replicate 16 5) (by decide)).1 rfl
  exact ⟨h.1, (h.2.2 3 (by decide) (by decide)).1, (h.2.2 3 (by decide) (by decide)).2⟩

/-- C4 counterexample: on the all-maximal canonical width-16 state, the
shifted accumulator for index 1 already exceeds `N * (p - 1)`, refuting the
claim that every accumulated sum is bounded by `N * (p - 1)`. -/
theorem claim_C4_counterexample :
    (∀ x ∈ List.replicate 16 (P - 1), x < P)
      ∧ ¬ si_acc (List.replicate 16 (P - 1)) shifts16 1 ≤ 16 * (P - 1) := by
  decide

/-! ### External-layer shape adapters -/

/-- The adapter `to_internal_rep`: wrap a state in the one-row
array-of-states representation (`[state]`). -/
def to_internal_rep (s : List ℕ) : List (List ℕ) := [s]

/-- The adapter `to_output_rep`: extract row 0 (`state[0]`) from the one-row
array-of-states representation. -/
def to_output_rep (a : List (List ℕ)) : List ℕ := a.getD 0 []

/-- C10: the external-layer shape conversions round-trip in both directions
(the second direction on one-row arrays, the only inhabitants of `[[F; W]; 1]`). -/
theorem claim_C10_rep_round_trip :
    (∀ s : List ℕ, to_output_rep (to_internal_rep s) = s)
      ∧ ∀ a : List (List ℕ), a.length = 1 → to_internal_rep (to_output_rep a) = a := by
  refine ⟨fun s => rfl, fun a ha => ?_⟩
  match a, ha with
  | [s], _ => rfl

theorem claim_C10_witness :
    to_output_rep (to_internal_rep [7, 8, 9]) = [7, 8, 9]
      ∧ to_internal_rep (to_output_rep [[7, 8, 9]]) = [[7, 8, 9]] :=
  ⟨claim_C10_rep_round_trip.1 [7, 8, 9], claim_C10_rep_round_trip.2 [[7, 8, 9]] rfl⟩

/-! ### Coset MDS permutation (`mds/src/coset_mds.rs`) -/

/-- Fuelled floor base-2 logarithm; structurally recursive so that it
evaluates inside the kernel. -/
def log2fuel : ℕ → ℕ → ℕ
  | 0, _ => 0
  | fuel + 1, n => if n ≤ 1 then 0 else log2fuel fuel (n / 2) + 1

/-- Executable floor base-2 logarithm, agreeing with `Nat.log2`
(see `log2N_eq`). -/
def log2N (n : ℕ) : ℕ := log2fuel n n

theorem log2fuel_eq (fuel : ℕ) : ∀ n, n ≤ fuel → log2fuel fuel n = Nat.log2 n := by
  induction fuel with
  | zero =>
      intro n hn
      have : n = 0 := by omega
      subst this
      rw [Nat.log2]
      simp [log2fuel]
  | succ f ih =>
      intro n hn
      rw [Nat.log2, log2fuel]
      by_cases h1 : n ≤ 1
      · simp [h1, show ¬ n ≥ 2 by omega]
      · have hf : n / 2 ≤ f := by omega
        simp [h1, show n ≥ 2 by omega, ih _ hf]

theorem log2N_eq (n : ℕ) : log2N n = Nat.log2 n := log2fuel_eq n n le_rfl

section CosetMds

variable {F : Type} [CommRing F]

/-- Modelled from the spec: the twiddle-free butterfly of §4.5
(`butterflies.rs` is not among the sources): `new_hi = hi + lo`,
`new_lo = hi - lo`. -/
def twiddle_free_butterfly (values : List F) (hi lo : ℕ) : List F :=
  let x := values.getD hi 0
  let y := values.getD lo 0
  (values.set hi (x + y)).set lo (x - y)

/-- Modelled from the spec: the decimation-in-frequency butterfly of §4.5:
`new_hi = hi + lo`, `new_lo = (hi - lo) * t`. -/
def dif_butterfly (values : List F) (hi lo : ℕ) (t : F) : List F :=
  let x := values.getD hi 0
  let y := values.getD lo 0
  (values.set hi (x + y)).set lo ((x - y) * t)

/-- Modelled from the spec: the decimation-in-time butterfly of §4.5:
`new_hi = hi + lo * t`, `new_lo = hi - lo * t`. -/
def dit_butterfly (values : List F) (hi lo : ℕ) (t : F) : List F :=
  let x := values.getD hi 0
  let y := values.getD lo 0 * t
  (values.set hi (x + y)).set lo (x - y)

/-- A single butterfly instruction of a network layer, remembering which
primitive is applied at which pair of positions with which twiddle. -/
inductive BflyOp (F : Type) where
  | tf (hi lo : ℕ)
  | dif (hi lo : ℕ) (t : F)
  | dit (hi lo : ℕ) (t : F)
  deriving DecidableEq

/-- Execute one butterfly instruction on the state. -/
def applyBfly (values : List F) : BflyOp F → List F
  | .tf hi lo => twiddle_free_butterfly values hi lo
  | .dif hi lo t => dif_butterfly values hi lo t
  | .dit hi lo t => dit_butterfly values hi lo t

/-- The butterfly instructions of one layer of the Bowers G network
(`bowers_g_layer`): the unrolled first iteration applies the twiddle-free
butterfly at `hi ∈ [0, half_block_size)`, then each later block `b`
(paired with `twiddles[b]` via `(1..num_blocks).zip(&twiddles[1..])`)
applies the decimation-in-frequency butterfly on its first half. -/
def bowers_g_layer_ops (N log_half_block_size : ℕ) (twiddles : List F) :
    List (BflyOp F) :=
  let log_block_size := log_half_block_size + 1
  let half_block_size := 2 ^ log_half_block_size
  let num_blocks := N / 2 ^ log_block_size
  ((List.range half_block_size).map fun hi => BflyOp.tf hi (hi + half_block_size))
    ++ ((List.range' 1 (num_blocks - 1)).zip (twiddles.drop 1)).flatMap fun bt =>
        (List.range' (bt.1 * 2 ^ log_block_size) half_block_size).map fun hi =>
          BflyOp.dif hi (hi + half_block_size) bt.2

/-- The butterfly instructions of one layer of the Bowers G^T network
(`bowers_g_t_layer`); identical to `bowers_g_layer_ops` except that the
twiddled blocks use the decimation-in-time butterfly. -/
def bowers_g_t_layer_ops (N log_half_block_size : ℕ) (twiddles : List F) :
    List (BflyOp F) :=
  let log_block_size := log_half_block_size + 1
  let half_block_size := 2 ^ log_half_block_size
  let num_blocks := N / 2 ^ log_block_size
  ((List.range half_block_size).map fun hi => BflyOp.tf hi (hi + half_block_size))
    ++ ((List.range' 1 (num_blocks - 1)).zip (twiddles.drop 1)).flatMap fun bt =>
        (List.range' (bt.1 * 2 ^ log_block_size) half_block_size).map fun hi =>
          BflyOp.dit hi (hi + half_block_size) bt.2

/-- One layer of the Bowers G network (`bowers_g_layer`). -/
def bowers_g_layer (values : List F) (log_half_block_size : ℕ)
    (twiddles : List F) : List F :=
  (bowers_g_layer_ops values.length log_half_block_size twiddles).foldl
    applyBfly values

/-- One layer of the Bowers G^T network (`bowers_g_t_layer`). -/
def bowers_g_t_layer (values : List F) (log_half_block_size : ℕ)
    (twiddles : List F) : List F :=
  (bowers_g_t_layer_ops values.length log_half_block_size twiddles).foldl
    applyBfly values

/-- The Bowers G network (`bowers_g`): layers in increasing block-size order.
The source takes `log_n = log2_strict_usize(N)`, which equals `Nat.log2 N` on
the power-of-two widths for which the permutation is constructed. -/
def bowers_g (values : List F) (twiddles : List F) : List F :=
  (List.range (log2N values.length)).foldl
    (fun v h => bowers_g_layer v h twiddles) values

/-- The Bowers G^T network (`bowers_g_t`): layers in decreasing block-size
order. -/
def bowers_g_t (values : List F) (twiddles : List F) : List F :=
  (List.range (log2N values.length)).reverse.foldl
    (fun v h => bowers_g_t_layer v h twiddles) values

/-- Precomputed tables of a `CosetMds` instance. -/
structure CosetMdsL (F : Type) where
  fft_twiddles : List F
  ifft_twiddles : List F
  weights : List F
  deriving DecidableEq

/-- The list `x.powers().take(n)` of the first `n` powers of `x`. -/
def powersTake (x : F) (n : ℕ) : List F := (List.range n).map (x ^ ·)

/-- Reversal of the low `bits` bits of an index. -/
def bitRev : ℕ → ℕ → ℕ
  | 0, _ => 0
  | b + 1, i => i % 2 * 2 ^ b + bitRev b (i / 2)

/-- Modelled from the spec: the `p3_util` helper `reverse_slice_index_bits`
(not among the sources), the bit-reversal permutation of a
power-of-two-length slice. -/
def reverse_slice_index_bits (l : List F) : List F :=
  (List.range l.length).map fun i => l.getD (bitRev (log2N l.length) i) 0

/-- Modelled from the spec: the `p3_util` helper `log2_strict_usize` (not
among the sources). Construction aborts (here: `none`) unless the base-2
logarithm of `n` is exact. -/
def log2_strict (n : ℕ) : Option ℕ :=
  if 2 ^ log2N n = n then some (log2N n) else none

/-- The `Default` constructor of `CosetMds` for width `N`.  The two-adic
field interface (`two_adic_generator`, `GENERATOR`) is external and passed
as parameters; `root.inverse()` is field inversion. -/
def cosetMdsDefault {F : Type} [Field F] (N : ℕ) (two_adic_generator : ℕ → F)
    (generator : F) : Option (CosetMdsL F) :=
  (log2_strict N).map fun log_n =>
    ⟨reverse_slice_index_bits (powersTake (two_adic_generator log_n) (N / 2)),
     reverse_slice_index_bits (powersTake (two_adic_generator log_n)⁻¹ (N / 2)),
     reverse_slice_index_bits (powersTake generator N)⟩

/-- `CosetMds::permute_mut`: inverse network with the inverse-FFT twiddles,
elementwise multiply by the coset weights, forward network with the
forward-FFT twiddles. -/
def permuteMutC (m : CosetMdsL F) (values : List F) : List F :=
  bowers_g
    (List.zipWith (fun x w => x * w) (bowers_g_t values m.ifft_twiddles) m.weights)
    m.fft_twiddles

/-- `CosetMds::permute`: copy the input, run `permute_mut`, return the copy. -/
def permuteC (m : CosetMdsL F) (values : List F) : List F := permuteMutC m values

end CosetMds

/-! ### Instantiation over the two-adic field `F_17`

`CosetMds` is generic over a `TwoAdicField`.  To settle value-level claims we
fix the concrete instantiation `F = ZMod 17` (2-adicity 4, multiplicative
generator 3) at the supported width `N = 8`. -/

instance fact_prime_17 : Fact (Nat.Prime 17) := ⟨by norm_num⟩

/-- Modelled from the spec: the external `TwoAdicField` interface of `F_17`.
`two_adic_generator(bits)` is a principal `2^bits`-th root of unity, obtained
from the full generator 3 of the order-16 multiplicative group. -/
def twoAdicGen17 (bits : ℕ) : ZMod 17 := 3 ^ (2 ^ 4 / 2 ^ bits)

/-- Modelled from the spec: the fixed multiplicative generator (the coset
shift) of `F_17`. -/
def gen17 : ZMod 17 := 3

/-- The width-8 `CosetMds` tables over `F_17`, as built by the constructor
(see `mds17_default`). -/
def mds17 : CosetMdsL (ZMod 17) :=
  ⟨[1, 13, 9, 15], [1, 4, 2, 8], [1, 13, 9, 15, 3, 5, 10, 11]⟩

theorem twoAdicGen17_inv : (twoAdicGen17 3)⁻¹ = (2 : ZMod 17) := by
  have h : twoAdicGen17 3 = 9 := by decide
  rw [h]
  exact inv_eq_of_mul_eq_one_right (by decide)

theorem mds17_default : cosetMdsDefault 8 twoAdicGen17 gen17 = some mds17 := by
  unfold cosetMdsDefault
  rw [show log2_strict 8 = some 3 from rfl, Option.map_some', twoAdicGen17_inv]
  decide

/-- The width-8 coset-MDS permutation over `F_17`. -/
def permute17 (values : List (ZMod 17)) : List (ZMod 17) := permuteMutC mds17 values

/-! ### Linearity of the butterfly networks -/

section Linearity

variable {F : Type} [CommRing F]

/-- Pointwise sum of two state vectors. -/
def vadd (x y : List F) : List F := List.zipWith (fun a b => a + b) x y

/-- Scalar multiple of a state vector. -/
def vsmul (a : F) (x : List F) : List F := x.map fun b => a * b

theorem vadd_length (x y : List F) (hlen : x.length = y.length) :
    (vadd x y).length = x.length := by
  rw [vadd, List.length_zipWith, hlen, Nat.min_self]

theorem vsmul_length (a : F) (x : List F) : (vsmul a x).length = x.length :=
  List.length_map x _

theorem vadd_getD (x y : List F) (hlen : x.length = y.length) (i : ℕ) :
    (vadd x y).getD i 0 = x.getD i 0 + y.getD i 0 := by
  induction x generalizing y i with
  | nil =>
      cases y with
      | nil => simp [vadd]
      | cons b t => simp at hlen
  | cons a s ih =>
      cases y with
      | nil => simp at hlen
      | cons b t =>
          cases i with
          | zero => simp [vadd]
          | succ n =>
              have : s.length = t.length := by simpa using hlen
              simpa [vadd] using ih t this n

theorem vsmul_getD (a : F) (x : List F) (i : ℕ) :
    (vsmul a x).getD i 0 = a * x.getD i 0 := by
  induction x generalizing i with
  | nil => simp [vsmul]
  | cons c s ih =>
      cases i with
      | zero => simp [vsmul]
      | succ n => simpa [vsmul] using ih n

theorem vadd_set (x y : List F) (n : ℕ) (a b : F) :
    vadd (x.set n a) (y.set n b) = (vadd x y).set n (a + b) := by
  induction x generalizing y n with
  | nil => simp [vadd]
  | cons c s ih =>
      cases y with
      | nil => simp [vadd]
      | cons d t =>
          cases n with
          | zero => simp [vadd]
          | succ m => simpa [vadd] using ih t m

theorem vsmul_set (a : F) (x : List F) (n : ℕ) (b : F) :
    vsmul a (x.set n b) = (vsmul a x).set n (a * b) := by
  induction x generalizing n with
  | nil => simp [vsmul]
  | cons c s ih =>
      cases n with
      | zero => simp [vsmul]
      | succ m => simpa [vsmul] using ih m

theorem set2_congr (l : List F) (hi lo : ℕ) {a a' b b' : F}
    (ha : a = a') (hb : b = b') :
    (l.set hi a).set lo b = (l.set hi a').set lo b' := by
  rw [ha, hb]

theorem applyBfly_vadd (x y : List F) (hlen : x.length = y.length)
    (op : BflyOp F) :
    applyBfly (vadd x y) op = vadd (applyBfly x op) (applyBfly y op) := by
  cases op with
  | tf hi lo =>
      simp only [applyBfly, twiddle_free_butterfly, vadd_getD x y hlen, vadd_set]
      exact set2_congr _ _ _ (by ring) (by ring)
  | dif hi lo t =>
      simp only [applyBfly, dif_butterfly, vadd_getD x y hlen, vadd_set]
      exact set2_congr _ _ _ (by ring) (by ring)
  | dit hi lo t =>
      simp only [applyBfly, dit_butterfly, vadd_getD x y hlen, vadd_set]
      exact set2_congr _ _ _ (by ring) (by ring)

theorem applyBfly_vsmul (a : F) (x : List F) (op : BflyOp F) :
    applyBfly (vsmul a x) op = vsmul a (applyBfly x op) := by
  cases op with
  | tf hi lo =>
      simp only [applyBfly, twiddle_free_butterfly, vsmul_getD, vsmul_set]
      exact set2_congr _ _ _ (by ring) (by ring)
  | dif hi lo t =>
      simp only [applyBfly, dif_butterfly, vsmul_getD, vsmul_set]
      exact set2_congr _ _ _ (by ring) (by ring)
  | dit hi lo t =>
      simp only [applyBfly, dit_butterfly, vsmul_getD, vsmul_set]
      exact set2_congr _ _ _ (by ring) (by ring)

theorem applyBfly_length (x : List F) (op : BflyOp F) :
    (applyBfly x op).length = x.length := by
  cases op <;>
    simp [applyBfly, twiddle_free_butterfly, dif_butterfly, dit_butterfly]

theorem foldl_applyBfly_length (ops : List (BflyOp F)) (x : List F) :
    (ops.foldl applyBfly x).length = x.length := by
  induction ops generalizing x with
  | nil => rfl
  | cons op rest ih => rw [List.foldl_cons, ih, applyBfly_length]

theorem foldl_applyBfly_vadd (ops : List (BflyOp F)) (x y : List F)
    (hlen : x.length = y.length) :
    ops.foldl applyBfly (vadd x y)
      = vadd (ops.foldl applyBfly x) (ops.foldl applyBfly y) := by
  induction ops generalizing x y with
  | nil => rfl
  | cons op rest ih =>
      rw [List.foldl_cons, List.foldl_cons, List.foldl_cons,
        applyBfly_vadd x y hlen op]
      exact ih _ _ (by rw [applyBfly_length, applyBfly_length, hlen])

theorem foldl_applyBfly_vsmul (ops : List (BflyOp F)) (a : F) (x : List F) :
    ops.foldl applyBfly (vsmul a x) = vsmul a (ops.foldl applyBfly x) := by
  induction ops generalizing x with
  | nil => rfl
  | cons op rest ih =>
      rw [List.foldl_cons, List.foldl_cons, applyBfly_vsmul a x op]
      exact ih _

theorem bowers_g_layer_length (x : List F) (h : ℕ) (tw : List F) :
    (bowers_g_layer x h tw).length = x.length := by
  rw [bowers_g_layer, foldl_applyBfly_length]

theorem bowers_g_t_layer_length (x : List F) (h : ℕ) (tw : List F) :
    (bowers_g_t_layer x h tw).length = x.length := by
  rw [bowers_g_t_layer, foldl_applyBfly_length]

theorem bowers_g_layer_vadd (x y : List F) (hlen : x.length = y.length)
    (h : ℕ) (tw : List F) :
    bowers_g_layer (vadd x y) h tw
      = vadd (bowers_g_layer x h tw) (bowers_g_layer y h tw) := by
  rw [bowers_g_layer, bowers_g_layer, bowers_g_layer, vadd_length x y hlen, hlen]
  exact foldl_applyBfly_vadd _ x y hlen

theorem bowers_g_t_layer_vadd (x y : List F) (hlen : x.length = y.length)
    (h : ℕ) (tw : List F) :
    bowers_g_t_layer (vadd x y) h tw
      = vadd (bowers_g_t_layer x h tw) (bowers_g_t_layer y h tw) := by
  rw [bowers_g_t_layer, bowers_g_t_layer, bowers_g_t_layer,
    vadd_length x y hlen, hlen]
  exact foldl_applyBfly_vadd _ x y hlen

theorem bowers_g_layer_vsmul (a : F) (x : List F) (h : ℕ) (tw : List F) :
    bowers_g_layer (vsmul a x) h tw = vsmul a (bowers_g_layer x h tw) := by
  rw [bowers_g_layer, bowers_g_layer, vsmul_length]
  exact foldl_applyBfly_vsmul _ a x

theorem bowers_g_t_layer_vsmul (a : F) (x : List F) (h : ℕ) (tw : List F) :
    bowers_g_t_layer (vsmul a x) h tw = vsmul a (bowers_g_t_layer x h tw) := by
  rw [bowers_g_t_layer, bowers_g_t_layer, vsmul_length]
  exact foldl_applyBfly_vsmul _ a x

theorem foldl_g_layer_length (L : List ℕ) (tw : List F) (x : List F) :
    (L.foldl (fun v h => bowers_g_layer v h tw) x).length = x.length := by
  induction L generalizing x with
  | nil => rfl
  | cons h rest ih => rw [List.foldl_cons, ih, bowers_g_layer_length]

theorem foldl_g_t_layer_length (L : List ℕ) (tw : List F) (x : List F) :
    (L.foldl (fun v h => bowers_g_t_layer v h tw) x).length = x.length := by
  induction L generalizing x with
  | nil => rfl
  | cons h rest ih => rw [List.foldl_cons, ih, bowers_g_t_layer_length]

theorem foldl_g_layer_vadd (L : List ℕ) (tw : List F) (x y : List F)
    (hlen : x.length = y.length) :
    L.foldl (fun v h => bowers_g_layer v h tw) (vadd x y)
      = vadd (L.foldl (fun v h => bowers_g_layer v h tw) x)
          (L.foldl (fun v h => bowers_g_layer v h tw) y) := by
  induction L generalizing x y with
  | nil => rfl
  | cons h rest ih =>
      rw [List.foldl_cons, List.foldl_cons, List.foldl_cons,
        bowers_g_layer_vadd x y hlen]
      exact ih _ _ (by rw [bowers_g_layer_length, bowers_g_layer_length, hlen])

theorem foldl_g_t_layer_vadd (L : List ℕ) (tw : List F) (x y : List F)
    (hlen : x.length = y.length) :
    L.foldl (fun v h => bowers_g_t_layer v h tw) (vadd x y)
      = vadd (L.foldl (fun v h => bowers_g_t_layer v h tw) x)
          (L.foldl (fun v h => bowers_g_t_layer v h tw) y) := by
  induction L generalizing x y with
  | nil => rfl
  | cons h rest ih =>
      rw [List.foldl_cons, List.foldl_cons, List.foldl_cons,
        bowers_g_t_layer_vadd x y hlen]
      exact ih _ _
        (by rw [bowers_g_t_layer_length, bowers_g_t_layer_length, hlen])

theorem foldl_g_layer_vsmul (L : List ℕ) (tw : List F) (a : F) (x : List F) :
    L.foldl (fun v h => bowers_g_layer v h tw) (vsmul a x)
      = vsmul a (L.foldl (fun v h => bowers_g_layer v h tw) x) := by
  induction L generalizing x with
  | nil => rfl
  | cons h rest ih =>
      rw [List.foldl_cons, List.foldl_cons, bowers_g_layer_vsmul]
      exact ih _

theorem foldl_g_t_layer_vsmul (L : List ℕ) (tw : List F) (a : F) (x : List F) :
    L.foldl (fun v h => bowers_g_t_layer v h tw) (vsmul a x)
      = vsmul a (L.foldl (fun v h => bowers_g_t_layer v h tw) x) := by
  induction L generalizing x with
  | nil => rfl
  | cons h rest ih =>
      rw [List.foldl_cons, List.foldl_cons, bowers_g_t_layer_vsmul]
      exact ih _

theorem bowers_g_vadd (x y : List F) (hlen : x.length = y.length)
    (tw : List F) :
    bowers_g (vadd x y) tw = vadd (bowers_g x tw) (bowers_g y tw) := by
  rw [bowers_g, bowers_g, bowers_g, vadd_length x y hlen, hlen]
  exact foldl_g_layer_vadd _ tw x y hlen

theorem bowers_g_t_vadd (x y : List F) (hlen : x.length = y.length)
    (tw : List F) :
    bowers_g_t (vadd x y) tw = vadd (bowers_g_t x tw) (bowers_g_t y tw) := by
  rw [bowers_g_t, bowers_g_t, bowers_g_t, vadd_length x y hlen, hlen]
  exact foldl_g_t_layer_vadd _ tw x y hlen

theorem bowers_g_vsmul (a : F) (x : List F) (tw : List F) :
    bowers_g (vsmul a x) tw = vsmul a (bowers_g x tw) := by
  rw [bowers_g, bowers_g, vsmul_length]
  exact foldl_g_layer_vsmul _ tw a x

theorem bowers_g_t_vsmul (a : F) (x : List F) (tw : List F) :
    bowers_g_t (vsmul a x) tw = vsmul a (bowers_g_t x tw) := by
  rw [bowers_g_t, bowers_g_t, vsmul_length]
  exact foldl_g_t_layer_vsmul _ tw a x

theorem bowers_g_length (x : List F) (tw : List F) :
    (bowers_g x tw).length = x.length := by
  rw [bowers_g, foldl_g_layer_length]

theorem bowers_g_t_length (x : List F) (tw : List F) :
    (bowers_g_t x tw).length = x.length := by
  rw [bowers_g_t, foldl_g_t_layer_length]

theorem zipWith_mul_vadd (x y w : List F) (hlen : x.length = y.length) :
    List.zipWith (fun v u => v * u) (vadd x y) w
      = vadd (List.zipWith (fun v u => v * u) x w)
          (List.zipWith (fun v u => v * u) y w) := by
  induction x generalizing y w with
  | nil =>
      cases y with
      | nil => simp [vadd]
      | cons b t => simp at hlen
  | cons a s ih =>
      cases y with
      | nil => simp at hlen
      | cons b t =>
          cases w with
          | nil => simp [vadd]
          | cons c u =>
              have : s.length = t.length := by simpa using hlen
              simp only [vadd, List.zipWith_cons_cons]
              rw [show (a + b) * c = a * c + b * c by ring]
              exact congrArg _ (ih t u this)

theorem zipWith_mul_vsmul (a : F) (x w : List F) :
    List.zipWith (fun v u => v * u) (vsmul a x) w
      = vsmul a (List.zipWith (fun v u => v * u) x w) := by
  induction x generalizing w with
  | nil => simp [vsmul]
  | cons c s ih =>
      cases w with
      | nil => simp [vsmul]
      | cons d u =>
          simp only [vsmul, List.map_cons, List.zipWith_cons_cons]
          rw [show a * c * d = a * (c * d) by ring]
          exact congrArg _ (ih u)

theorem zipWith_mul_length (x w : List F) :
    (List.zipWith (fun v u => v * u) x w).length = min x.length w.length :=
  List.length_zipWith _ x w

/-- `CosetMds::permute_mut` is additive on states of equal width. -/
theorem permuteMutC_vadd (m : CosetMdsL F) (x y : List F)
    (hlen : x.length = y.length) :
    permuteMutC m (vadd x y) = vadd (permuteMutC m x) (permuteMutC m y) := by
  rw [permuteMutC, permuteMutC, permuteMutC,
    bowers_g_t_vadd x y hlen m.ifft_twiddles,
    zipWith_mul_vadd _ _ m.weights
      (by rw [bowers_g_t_length, bowers_g_t_length, hlen]),
    bowers_g_vadd _ _ (by
      rw [zipWith_mul_length, zipWith_mul_length,
        bowers_g_t_length, bowers_g_t_length, hlen])]

/-- `CosetMds::permute_mut` is homogeneous. -/
theorem permuteMutC_vsmul (m : CosetMdsL F) (a : F) (x : List F) :
    permuteMutC m (vsmul a x) = vsmul a (permuteMutC m x) := by
  rw [permuteMutC, permuteMutC, bowers_g_t_vsmul a x m.ifft_twiddles,
    zipWith_mul_vsmul a _ m.weights, bowers_g_vsmul]

theorem permuteMutC_length (m : CosetMdsL F) (x : List F) :
    (permuteMutC m x).length = min x.length m.weights.length := by
  rw [permuteMutC, bowers_g_length, zipWith_mul_length, bowers_g_t_length]

/-- Evaluation of the polynomial with coefficient list `c` (degree below
`c.length`) at a point, by Horner's rule. -/
def polyEval (c : List F) (x : F) : F := c.foldr (fun a acc => a + x * acc) 0

theorem polyEval_vadd (c d : List F) (hlen : c.length = d.length) (x : F) :
    polyEval (vadd c d) x = polyEval c x + polyEval d x := by
  induction c generalizing d with
  | nil =>
      cases d with
      | nil => simp [vadd, polyEval]
      | cons b t => simp at hlen
  | cons a s ih =>
      cases d with
      | nil => simp at hlen
      | cons b t =>
          have h : s.length = t.length := by simpa using hlen
          simp only [vadd, List.zipWith_cons_cons, polyEval, List.foldr_cons]
          rw [show List.foldr (fun a acc => a + x * acc) 0 (List.zipWith (fun a b => a + b) s t)
              = polyEval (vadd s t) x from rfl, ih t h]
          simp only [polyEval]
          ring

theorem polyEval_vsmul (a : F) (c : List F) (x : F) :
    polyEval (vsmul a c) x = a * polyEval c x := by
  induction c with
  | nil => simp [vsmul, polyEval]
  | cons b s ih =>
      simp only [vsmul, List.map_cons, polyEval, List.foldr_cons]
      rw [show List.foldr (fun a acc => a + x * acc) 0 (s.map fun b => a * b)
          = polyEval (vsmul a s) x from rfl, ih]
      simp only [polyEval]
      ring

theorem list_map_add (l : List ℕ) (f g : ℕ → F) :
    l.map (fun k => f k + g k) = vadd (l.map f) (l.map g) := by
  induction l with
  | nil => rfl
  | cons a t ih =>
      simp only [List.map_cons, vadd, List.zipWith_cons_cons]
      exact congrArg _ ih

theorem list_map_smul (l : List ℕ) (a : F) (f : ℕ → F) :
    l.map (fun k => a * f k) = vsmul a (l.map f) := by
  induction l with
  | nil => rfl
  | cons b t ih => simp [vsmul, ih]

end Linearity

/-! ### Reference semantics over `F_17`: subgroup and coset evaluations -/

/-- The `k`-th point of the order-8 subgroup `H` generated by
`two_adic_generator(3)`. -/
def subgroupPt17 (k : ℕ) : ZMod 17 := twoAdicGen17 3 ^ k

/-- The `k`-th point of the coset `shift * H`. -/
def cosetPt17 (k : ℕ) : ZMod 17 := gen17 * subgroupPt17 k

/-- Evaluations on the subgroup `H` of the polynomial with coefficients `c`. -/
def evalsOnH (c : List (ZMod 17)) : List (ZMod 17) :=
  (List.range 8).map fun k => polyEval c (subgroupPt17 k)

/-- Evaluations on the coset `shift * H` of the polynomial with
coefficients `c`. -/
def evalsOnCoset (c : List (ZMod 17)) : List (ZMod 17) :=
  (List.range 8).map fun k => polyEval c (cosetPt17 k)

/-- `N` times the evaluations on the coset (`N = 8`). -/
def evalsOnCosetN (c : List (ZMod 17)) : List (ZMod 17) :=
  (List.range 8).map fun k => (8 : ZMod 17) * polyEval c (cosetPt17 k)

/-- The `i`-th standard basis vector of width 8. -/
def e8 (i : ℕ) : List (ZMod 17) := (List.range 8).map fun j => if j = i then 1 else 0

theorem evalsOnH_vadd (c d : List (ZMod 17)) (hlen : c.length = d.length) :
    evalsOnH (vadd c d) = vadd (evalsOnH c) (evalsOnH d) := by
  unfold evalsOnH
  rw [← list_map_add]
  exact List.map_congr_left fun k _ => polyEval_vadd c d hlen _

theorem evalsOnH_vsmul (a : ZMod 17) (c : List (ZMod 17)) :
    evalsOnH (vsmul a c) = vsmul a (evalsOnH c) := by
  unfold evalsOnH
  rw [← list_map_smul]
  exact List.map_congr_left fun k _ => polyEval_vsmul a c _

theorem evalsOnCoset_vadd (c d : List (ZMod 17)) (hlen : c.length = d.length) :
    evalsOnCoset (vadd c d) = vadd (evalsOnCoset c) (evalsOnCoset d) := by
  unfold evalsOnCoset
  rw [← list_map_add]
  exact List.map_congr_left fun k _ => polyEval_vadd c d hlen _

theorem evalsOnCoset_vsmul (a : ZMod 17) (c : List (ZMod 17)) :
    evalsOnCoset (vsmul a c) = vsmul a (evalsOnCoset c) := by
  unfold evalsOnCoset
  rw [← list_map_smul]
  exact List.map_congr_left fun k _ => polyEval_vsmul a c _

theorem evalsOnCosetN_vadd (c d : List (ZMod 17)) (hlen : c.length = d.length) :
    evalsOnCosetN (vadd c d) = vadd (evalsOnCosetN c) (evalsOnCosetN d) := by
  unfold evalsOnCosetN
  rw [← list_map_add]
  refine List.map_congr_left fun k _ => ?_
  rw [polyEval_vadd c d hlen]
  ring

theorem evalsOnCosetN_vsmul (a : ZMod 17) (c : List (ZMod 17)) :
    evalsOnCosetN (vsmul a c) = vsmul a (evalsOnCosetN c) := by
  unfold evalsOnCosetN
  rw [← list_map_smul]
  refine List.map_congr_left fun k _ => ?_
  rw [polyEval_vsmul a c]
  ring

/-- Destructor for length-8 lists. -/
theorem list_len8_destruct {α : Type} (c : List α) (hc : c.length = 8) :
    ∃ a0 a1 a2 a3 a4 a5 a6 a7, c = [a0, a1, a2, a3, a4, a5, a6, a7] := by
  cases c with
  | nil => simp at hc
  | cons x0 c =>
  cases c with
  | nil => simp at hc
  | cons x1 c =>
  cases c with
  | nil => simp at hc
  | cons x2 c =>
  cases c with
  | nil => simp at hc
  | cons x3 c =>
  cases c with
  | nil => simp at hc
  | cons x4 c =>
  cases c with
  | nil => simp at hc
  | cons x5 c =>
  cases c with
  | nil => simp at hc
  | cons x6 c =>
  cases c with
  | nil => simp at hc
  | cons x7 c =>
  cases c with
  | nil => exact ⟨x0, x1, x2, x3, x4, x5, x6, x7, rfl⟩
  | cons x8 c => simp at hc

theorem vadd_length_min {F : Type} [CommRing F] (x y : List F) :
    (vadd x y).length = min x.length y.length :=
  List.length_zipWith _ x y

theorem e8_length (i : ℕ) : (e8 i).length = 8 := by simp [e8]

set_option maxRecDepth 4000 in
/-- Every width-8 state is the standard linear combination of the basis. -/
theorem list8_decomp (x0 x1 x2 x3 x4 x5 x6 x7 : ZMod 17) :
    [x0, x1, x2, x3, x4, x5, x6, x7]
      = vadd (vsmul x0 (e8 0)) (vadd (vsmul x1 (e8 1)) (vadd (vsmul x2 (e8 2))
          (vadd (vsmul x3 (e8 3)) (vadd (vsmul x4 (e8 4)) (vadd (vsmul x5 (e8 5))
            (vadd (vsmul x6 (e8 6)) (vsmul x7 (e8 7)))))))) := by
  have h0 : e8 0 = [1, 0, 0, 0, 0, 0, 0, 0] := by decide
  have h1 : e8 1 = [0, 1, 0, 0, 0, 0, 0, 0] := by decide
  have h2 : e8 2 = [0, 0, 1, 0, 0, 0, 0, 0] := by decide
  have h3 : e8 3 = [0, 0, 0, 1, 0, 0, 0, 0] := by decide
  have h4 : e8 4 = [0, 0, 0, 0, 1, 0, 0, 0] := by decide
  have h5 : e8 5 = [0, 0, 0, 0, 0, 1, 0, 0] := by decide
  have h6 : e8 6 = [0, 0, 0, 0, 0, 0, 1, 0] := by decide
  have h7 : e8 7 = [0, 0, 0, 0, 0, 0, 0, 1] := by decide
  simp [h0, h1, h2, h3, h4, h5, h6, h7, vadd, vsmul]

/-- Two maps that are additive, homogeneous and agree on the standard basis
agree on every width-8 state. -/
theorem linmap8_ext (f g : List (ZMod 17) → List (ZMod 17))
    (hfa : ∀ x y : List (ZMod 17), x.length = y.length → f (vadd x y) = vadd (f x) (f y))
    (hfs : ∀ (a : ZMod 17) (x : List (ZMod 17)), f (vsmul a x) = vsmul a (f x))
    (hga : ∀ x y : List (ZMod 17), x.length = y.length → g (vadd x y) = vadd (g x) (g y))
    (hgs : ∀ (a : ZMod 17) (x : List (ZMod 17)), g (vsmul a x) = vsmul a (g x))
    (hb0 : f (e8 0) = g (e8 0)) (hb1 : f (e8 1) = g (e8 1))
    (hb2 : f (e8 2) = g (e8 2)) (hb3 : f (e8 3) = g (e8 3))
    (hb4 : f (e8 4) = g (e8 4)) (hb5 : f (e8 5) = g (e8 5))
    (hb6 : f (e8 6) = g (e8 6)) (hb7 : f (e8 7) = g (e8 7)) :
    ∀ s : List (ZMod 17), s.length = 8 → f s = g s := by
  intro s hs
  obtain ⟨x0, x1, x2, x3, x4, x5, x6, x7, rfl⟩ := list_len8_destruct s hs
  rw [list8_decomp x0 x1 x2 x3 x4 x5 x6 x7]
  simp only [hfa, hfs, hga, hgs, vadd_length_min, vsmul_length, e8_length,
    Nat.min_self, hb0, hb1, hb2, hb3, hb4, hb5, hb6, hb7]

theorem permute17_vadd (x y : List (ZMod 17)) (hlen : x.length = y.length) :
    permute17 (vadd x y) = vadd (permute17 x) (permute17 y) :=
  permuteMutC_vadd mds17 x y hlen

theorem permute17_vsmul (a : ZMod 17) (x : List (ZMod 17)) :
    permute17 (vsmul a x) = vsmul a (permute17 x) :=
  permuteMutC_vsmul mds17 a x

/-- Core of claim C2: on every width-8 state given by the evaluations on `H`
of a degree-below-8 polynomial, the coset-MDS permutation returns `N = 8`
times the evaluations of that polynomial on the coset `shift * H`. -/
theorem permute17_evalsOnH_core :
    ∀ c : List (ZMod 17), c.length = 8 →
      permute17 (evalsOnH c) = evalsOnCosetN c := by
  refine linmap8_ext (fun c => permute17 (evalsOnH c)) evalsOnCosetN
    (fun x y h => ?_) (fun a x => ?_) evalsOnCosetN_vadd evalsOnCosetN_vsmul
    (by decide) (by decide) (by decide) (by decide)
    (by decide) (by decide) (by decide) (by decide)
  · show permute17 (evalsOnH (vadd x y)) = vadd (permute17 (evalsOnH x)) (permute17 (evalsOnH y))
    rw [evalsOnH_vadd x y h, permute17_vadd _ _ (by simp [evalsOnH])]
  · show permute17 (evalsOnH (vsmul a x)) = vsmul a (permute17 (evalsOnH x))
    rw [evalsOnH_vsmul, permute17_vsmul]

/-- Inverse discrete Fourier transform on `H` (with `15 = 8⁻¹` in `F_17`),
recovering the coefficients of the interpolating polynomial. -/
def idft17 (s : List (ZMod 17)) : List (ZMod 17) :=
  (List.range 8).map fun j =>
    (15 : ZMod 17) * ∑ i : Fin 8, s.getD i 0 * (2 : ZMod 17) ^ ((i : ℕ) * j)

theorem idft17_vadd (x y : List (ZMod 17)) (hlen : x.length = y.length) :
    idft17 (vadd x y) = vadd (idft17 x) (idft17 y) := by
  unfold idft17
  rw [← list_map_add]
  refine List.map_congr_left fun j _ => ?_
  simp only [vadd_getD x y hlen, add_mul, Finset.sum_add_distrib]
  ring

theorem idft17_vsmul (a : ZMod 17) (x : List (ZMod 17)) :
    idft17 (vsmul a x) = vsmul a (idft17 x) := by
  unfold idft17
  rw [← list_map_smul]
  refine List.map_congr_left fun j _ => ?_
  simp only [vsmul_getD]
  rw [show (∑ i : Fin 8, a * x.getD i 0 * (2 : ZMod 17) ^ ((i : ℕ) * j))
      = a * ∑ i : Fin 8, x.getD i 0 * (2 : ZMod 17) ^ ((i : ℕ) * j) from by
    rw [Finset.mul_sum]
    exact Finset.sum_congr rfl fun i _ => by ring]
  ring

/-- The inverse DFT recovers the coefficients of any degree-below-8
polynomial from its evaluations on `H`; hence such an interpolant is
unique. -/
theorem idft17_evalsOnH : ∀ c : List (ZMod 17), c.length = 8 →
    idft17 (evalsOnH c) = c := by
  refine linmap8_ext (fun c => idft17 (evalsOnH c)) (fun c => c)
    (fun x y h => ?_) (fun a x => ?_) (fun x y h => rfl) (fun a x => rfl)
    (by decide) (by decide) (by decide) (by decide)
    (by decide) (by decide) (by decide) (by decide)
  · show idft17 (evalsOnH (vadd x y)) = vadd (idft17 (evalsOnH x)) (idft17 (evalsOnH y))
    rw [evalsOnH_vadd x y h, idft17_vadd _ _ (by simp [evalsOnH])]
  · show idft17 (evalsOnH (vsmul a x)) = vsmul a (idft17 (evalsOnH x))
    rw [evalsOnH_vsmul, idft17_vsmul]

/-- C2 (amended): over the two-adic field `F_17` at the supported width
`N = 8`, `permute_mut` maps the evaluations of a degree-below-8 polynomial on
the order-8 subgroup `H` to `N` times its evaluations on the coset
`shift * H` (the inverse network skips the `1/N` normalization, so the output
carries the extra scalar factor `N`); the interpolating polynomial is unique. -/
theorem claim_C2_coset_lde_times_N (s c : List (ZMod 17)) (hc : c.length = 8)
    (hint : evalsOnH c = s) :
    permute17 s = evalsOnCosetN c
      ∧ ∀ c' : List (ZMod 17), c'.length = 8 → evalsOnH c' = s → c' = c := by
  constructor
  · subst hint
    exact permute17_evalsOnH_core c hc
  · intro c' hc' h'
    have h1 := idft17_evalsOnH c hc
    have h2 := idft17_evalsOnH c' hc'
    rw [hint] at h1
    rw [h'] at h2
    exact h2.symm.trans h1

theorem claim_C2_witness :
    permute17 (List.replicate 8 1) = evalsOnCosetN [1, 0, 0, 0, 0, 0, 0, 0] :=
  (claim_C2_coset_lde_times_N (List.replicate 8 1) [1, 0, 0, 0, 0, 0, 0, 0]
    (by decide) (by decide)).1

/-- C2 counterexample: the all-ones state is interpolated by the constant
polynomial 1, whose coset evaluations are all ones, yet `permute_mut` returns
the all-eights state: the output is not the bare coset evaluations. -/
theorem claim_C2_counterexample :
    evalsOnH [1, 0, 0, 0, 0, 0, 0, 0] = List.replicate 8 1
      ∧ permute17 (List.replicate 8 1) ≠ evalsOnCoset [1, 0, 0, 0, 0, 0, 0, 0] := by
  decide

/-! ### Linearity of the diffusion layer over the KoalaBear field -/

instance P_NeZero : NeZero P := ⟨by decide⟩

/-- Interpretation of a list of stored values as field elements. -/
def castList (s : List ℕ) : List (ZMod P) := s.map Nat.cast

/-- Canonical stored values of a list of field elements. -/
def valList (v : List (ZMod P)) : List ℕ := v.map ZMod.val

/-- The diffusion `permute_mut` as the induced map on field-element states
(states are field elements; the stored `u32` is their canonical
representative). -/
def diffusionMapF (shifts : List ℕ) (v : List (ZMod P)) : List (ZMod P) :=
  castList (permuteMutKB (valList v) shifts)

/-- The algebraic form of the diffusion map over the field. -/
def algMap (shifts : List ℕ) (v : List (ZMod P)) : List (ZMod P) :=
  (List.range v.length).map fun i =>
    (v.sum + ((diagEntries shifts).getD i 0 : ZMod P) * v.getD i 0)
      * (RINV : ZMod P)

theorem castList_getD (s : List ℕ) (j : ℕ) :
    (castList s).getD j 0 = ((s.getD j 0 : ℕ) : ZMod P) := by
  induction s generalizing j with
  | nil => simp [castList]
  | cons a t ih =>
      cases j with
      | zero => simp [castList]
      | succ n => simpa [castList] using ih n

theorem castList_length (s : List ℕ) : (castList s).length = s.length :=
  List.length_map s _

theorem valList_length (v : List (ZMod P)) : (valList v).length = v.length :=
  List.length_map v _

theorem castList_valList (v : List (ZMod P)) : castList (valList v) = v := by
  rw [castList, valList, List.map_map]
  calc List.map (Nat.cast ∘ ZMod.val) v
      = List.map id v := List.map_congr_left fun a _ => ZMod.natCast_rightInverse a
    _ = v := List.map_id v

/-- The sum of the cast list is the `Fin`-indexed sum of the cast entries. -/
theorem castList_sum (s : List ℕ) :
    (castList s).sum = ∑ j : Fin s.length, ((s.getD j 0 : ℕ) : ZMod P) := by
  induction s with
  | nil => simp [castList]
  | cons a t ih =>
      rw [show castList (a :: t) = ((a : ℕ) : ZMod P) :: castList t from rfl,
        List.sum_cons, ih, show (a :: t).length = t.length + 1 from rfl,
        Fin.sum_univ_succ]
      simp

/-- Bridge: on canonical stored values, the cast of `permute_mut` is the
algebraic map applied to the cast state. -/
theorem castList_permuteMut (s shifts : List ℕ) (hlen : s.length = shifts.length + 1)
    (hval : ∀ x ∈ s, x < P) :
    castList (permuteMutKB s shifts) = algMap shifts (castList s) := by
  rw [permuteMut_eq_naive s shifts hlen hval, naiveMatMul, algMap, castList,
    List.map_map, castList_length]
  refine List.map_congr_left fun i hi => ?_
  rw [List.mem_range] at hi
  show ((_ % P : ℕ) : ZMod P) = _
  rw [ZMod.natCast_mod, naive_entry_cast s shifts i hi, castList_sum,
    castList_getD]

theorem vadd_sum (x y : List (ZMod P)) (hlen : x.length = y.length) :
    (vadd x y).sum = x.sum + y.sum := by
  induction x generalizing y with
  | nil =>
      cases y with
      | nil => simp [vadd]
      | cons b t => simp at hlen
  | cons a s ih =>
      cases y with
      | nil => simp at hlen
      | cons b t =>
          have h : s.length = t.length := by simpa using hlen
          simp only [vadd, List.zipWith_cons_cons, List.sum_cons]
          rw [show List.zipWith (fun a b => a + b) s t = vadd s t from rfl, ih t h]
          ring

theorem vsmul_sum (a : ZMod P) (x : List (ZMod P)) :
    (vsmul a x).sum = a * x.sum := by
  induction x with
  | nil => simp [vsmul]
  | cons c s ih =>
      simp only [vsmul, List.map_cons, List.sum_cons]
      rw [show List.map (fun b => a * b) s = vsmul a s from rfl, ih]
      ring

theorem algMap_vadd (shifts : List ℕ) (x y : List (ZMod P))
    (hlen : x.length = y.length) :
    algMap shifts (vadd x y) = vadd (algMap shifts x) (algMap shifts y) := by
  unfold algMap
  rw [vadd_length x y hlen, ← hlen, ← list_map_add]
  refine List.map_congr_left fun i _ => ?_
  rw [vadd_sum x y hlen, vadd_getD x y hlen]
  ring

theorem algMap_vsmul (shifts : List ℕ) (a : ZMod P) (x : List (ZMod P)) :
    algMap shifts (vsmul a x) = vsmul a (algMap shifts x) := by
  unfold algMap
  rw [vsmul_length, ← list_map_smul]
  refine List.map_congr_left fun i _ => ?_
  rw [vsmul_sum, vsmul_getD]
  ring

/-- On states of the matching width, the induced diffusion map over the field
is the algebraic map. -/
theorem diffusionMapF_eq_algMap (shifts : List ℕ) (v : List (ZMod P))
    (hlen : v.length = shifts.length + 1) :
    diffusionMapF shifts v = algMap shifts v := by
  rw [diffusionMapF, castList_permuteMut (valList v) shifts
      (by rw [valList_length, hlen])
      (fun x hx => by
        rw [valList] at hx
        obtain ⟨a, _, rfl⟩ := List.mem_map.mp hx
        exact ZMod.val_lt a),
    castList_valList]

theorem diffusionMapF_linear (shifts : List ℕ) (a b : ZMod P)
    (x y : List (ZMod P)) (hx : x.length = shifts.length + 1)
    (hy : y.length = shifts.length + 1) :
    diffusionMapF shifts (vadd (vsmul a x) (vsmul b y))
      = vadd (vsmul a (diffusionMapF shifts x)) (vsmul b (diffusionMapF shifts y)) := by
  have hsl : (vsmul a x).length = (vsmul b y).length := by
    rw [vsmul_length, vsmul_length, hx, hy]
  rw [diffusionMapF_eq_algMap shifts x hx, diffusionMapF_eq_algMap shifts y hy,
    diffusionMapF_eq_algMap shifts _ (by rw [vadd_length _ _ hsl, vsmul_length, hx]),
    algMap_vadd shifts _ _ hsl, algMap_vsmul, algMap_vsmul]

/-- C8: both linear layers satisfy `f(a·x + b·y) = a·f(x) + b·f(y)` on
field-element states of the matching width — the diagonal diffusion
`permute_mut` at widths 16 and 24 (as the induced map on KoalaBear states)
and `CosetMds::permute_mut` at width 8 over `F_17`. -/
theorem claim_C8_linearity :
    (∀ (a b : ZMod P) (x y : List (ZMod P)), x.length = 16 → y.length = 16 →
        diffusionMapF shifts16 (vadd (vsmul a x) (vsmul b y))
          = vadd (vsmul a (diffusionMapF shifts16 x))
              (vsmul b (diffusionMapF shifts16 y)))
      ∧ (∀ (a b : ZMod P) (x y : List (ZMod P)), x.length = 24 → y.length = 24 →
          diffusionMapF shifts24 (vadd (vsmul a x) (vsmul b y))
            = vadd (vsmul a (diffusionMapF shifts24 x))
                (vsmul b (diffusionMapF shifts24 y)))
      ∧ ∀ (a b : ZMod 17) (x y : List (ZMod 17)), x.length = 8 → y.length = 8 →
          permute17 (vadd (vsmul a x) (vsmul b y))
            = vadd (vsmul a (permute17 x)) (vsmul b (permute17 y)) := by
  refine ⟨fun a b x y hx hy => diffusionMapF_linear shifts16 a b x y (by rw [hx]; rfl)
      (by rw [hy]; rfl),
    fun a b x y hx hy => diffusionMapF_linear shifts24 a b x y (by rw [hx]; rfl)
      (by rw [hy]; rfl),
    fun a b x y hx hy => ?_⟩
  rw [permute17_vadd _ _ (by rw [vsmul_length, vsmul_length, hx, hy]),
    permute17_vsmul, permute17_vsmul]

/-! ### The MDS property (claim C3) -/

/-- The matrix of `permute17` (column `i` is `permute17` of the `i`-th basis
vector; see `claim_C3_mds_matrix`). -/
def M17rows : List (List (ZMod 17)) :=
  [[16, 3, 6, 11, 9, 10, 8, 13],
   [13, 16, 3, 6, 11, 9, 10, 8],
   [8, 13, 16, 3, 6, 11, 9, 10],
   [10, 8, 13, 16, 3, 6, 11, 9],
   [9, 10, 8, 13, 16, 3, 6, 11],
   [11, 9, 10, 8, 13, 16, 3, 6],
   [6, 11, 9, 10, 8, 13, 16, 3],
   [3, 6, 11, 9, 10, 8, 13, 16]]

/-- The linear map carried out by `permute17`, as a square matrix. -/
def M17 : Matrix (Fin 8) (Fin 8) (ZMod 17) :=
  Matrix.of fun k i => (M17rows.getD (k : ℕ) []).getD (i : ℕ) 0

/-- Matrix-vector product as a map on width-8 states. -/
def mulVecM17 (s : List (ZMod 17)) : List (ZMod 17) :=
  (List.range 8).map fun k =>
    ∑ i : Fin 8, (M17rows.getD k []).getD (i : ℕ) 0 * s.getD (i : ℕ) 0

theorem mulVecM17_vadd (x y : List (ZMod 17)) (hlen : x.length = y.length) :
    mulVecM17 (vadd x y) = vadd (mulVecM17 x) (mulVecM17 y) := by
  unfold mulVecM17
  rw [← list_map_add]
  refine List.map_congr_left fun k _ => ?_
  simp only [vadd_getD x y hlen, mul_add, Finset.sum_add_distrib]

theorem mulVecM17_vsmul (a : ZMod 17) (x : List (ZMod 17)) :
    mulVecM17 (vsmul a x) = vsmul a (mulVecM17 x) := by
  unfold mulVecM17
  rw [← list_map_smul]
  refine List.map_congr_left fun k _ => ?_
  rw [Finset.mul_sum]
  refine Finset.sum_congr rfl fun i _ => ?_
  rw [vsmul_getD]
  ring

/-- `permute17` acts as multiplication by `M17` on every width-8 state. -/
theorem permute17_eq_mulVecM17 : ∀ s : List (ZMod 17), s.length = 8 →
    permute17 s = mulVecM17 s := by
  refine linmap8_ext permute17 mulVecM17 permute17_vadd permute17_vsmul
    mulVecM17_vadd mulVecM17_vsmul
    (by decide) (by decide) (by decide) (by decide)
    (by decide) (by decide) (by decide) (by decide)

/-- Coefficient `j` of the interpolating polynomial of the values `lam` on
the subgroup `H` (`15 = 8⁻¹`, `2 = 9⁻¹` in `F_17`). -/
def interpCoef (lam : Fin 8 → ZMod 17) (j : Fin 8) : ZMod 17 :=
  15 * ∑ i : Fin 8, lam i * 2 ^ ((i : ℕ) * (j : ℕ))

/-- The interpolating polynomial of the values `lam` on the subgroup `H`
(a proof device for the MDS argument, not part of the code embedding). -/
noncomputable def Ppoly (lam : Fin 8 → ZMod 17) : Polynomial (ZMod 17) :=
  ∑ j : Fin 8, Polynomial.C (interpCoef lam j) * Polynomial.X ^ (j : ℕ)

theorem Ppoly_eval (lam : Fin 8 → ZMod 17) (x : ZMod 17) :
    (Ppoly lam).eval x = ∑ j : Fin 8, interpCoef lam j * x ^ (j : ℕ) := by
  rw [Ppoly, Polynomial.eval_finset_sum]
  exact Finset.sum_congr rfl fun j _ => by
    rw [Polynomial.eval_mul, Polynomial.eval_C, Polynomial.eval_pow,
      Polynomial.eval_X]

theorem Ppoly_natDegree_le (lam : Fin 8 → ZMod 17) :
    (Ppoly lam).natDegree ≤ 7 := by
  refine Polynomial.natDegree_sum_le_of_forall_le _ _ fun j _ => ?_
  refine le_trans (Polynomial.natDegree_C_mul_le _ _) ?_
  rw [Polynomial.natDegree_X_pow]
  exact Nat.le_of_lt_succ j.isLt

theorem dft_delta : ∀ i k : Fin 8,
    (∑ j : Fin 8, (15 : ZMod 17) * 2 ^ ((i : ℕ) * (j : ℕ)) * 9 ^ ((k : ℕ) * (j : ℕ)))
      = if i = k then 1 else 0 := by decide

theorem twoAdicGen17_val : twoAdicGen17 3 = (9 : ZMod 17) := by decide

/-- The interpolating polynomial indeed takes the values `lam` on `H`. -/
theorem Ppoly_eval_subgroup (lam : Fin 8 → ZMod 17) (k : Fin 8) :
    (Ppoly lam).eval (subgroupPt17 (k : ℕ)) = lam k := by
  rw [Ppoly_eval, subgroupPt17, twoAdicGen17_val]
  calc ∑ j : Fin 8, interpCoef lam j * ((9 : ZMod 17) ^ (k : ℕ)) ^ (j : ℕ)
      = ∑ j : Fin 8, ∑ i : Fin 8,
          lam i * ((15 : ZMod 17) * 2 ^ ((i : ℕ) * (j : ℕ)) * 9 ^ ((k : ℕ) * (j : ℕ))) := by
        refine Finset.sum_congr rfl fun j _ => ?_
        rw [interpCoef, ← pow_mul, Finset.mul_sum, Finset.sum_mul]
        exact Finset.sum_congr rfl fun i _ => by ring
    _ = ∑ i : Fin 8, lam i * ∑ j : Fin 8,
          (15 : ZMod 17) * 2 ^ ((i : ℕ) * (j : ℕ)) * 9 ^ ((k : ℕ) * (j : ℕ)) := by
        rw [Finset.sum_comm]
        exact Finset.sum_congr rfl fun i _ => by rw [Finset.mul_sum]
    _ = ∑ i : Fin 8, lam i * (if i = k then 1 else 0) :=
        Finset.sum_congr rfl fun i _ => by rw [dft_delta]
    _ = lam k := by
        rw [show (∑ i : Fin 8, lam i * (if i = k then 1 else 0))
            = ∑ i : Fin 8, (if i = k then lam i else 0) from
          Finset.sum_congr rfl fun i _ => by
            by_cases h : i = k
            · rw [if_pos h, if_pos h, mul_one]
            · rw [if_neg h, if_neg h, mul_zero]]
        exact Fintype.sum_ite_eq' k lam

/-- Every entry of `M17` is `8` times the corresponding Lagrange-type kernel
value at the coset point — the finite check linking the program matrix to the
coset evaluation formula. -/
theorem M17_entry_eval : ∀ k i : Fin 8,
    M17 k i = 8 * ∑ j : Fin 8,
      (15 : ZMod 17) * 2 ^ ((i : ℕ) * (j : ℕ)) * cosetPt17 (k : ℕ) ^ (j : ℕ) := by
  decide

/-- Applying the `k`-th row of `M17` to values `lam` gives `8` times the
evaluation of the interpolant of `lam` at the `k`-th coset point. -/
theorem M17_row_eval (lam : Fin 8 → ZMod 17) (k : Fin 8) :
    (∑ i : Fin 8, M17 k i * lam i)
      = 8 * (Ppoly lam).eval (cosetPt17 (k : ℕ)) := by
  rw [Ppoly_eval]
  calc ∑ i : Fin 8, M17 k i * lam i
      = ∑ i : Fin 8, ∑ j : Fin 8,
          8 * ((15 : ZMod 17) * 2 ^ ((i : ℕ) * (j : ℕ))
            * cosetPt17 (k : ℕ) ^ (j : ℕ) * lam i) := by
        refine Finset.sum_congr rfl fun i _ => ?_
        rw [M17_entry_eval k i, Finset.mul_sum, Finset.sum_mul]
        refine Finset.sum_congr rfl fun j _ => by ring
    _ = ∑ j : Fin 8, ∑ i : Fin 8,
          8 * ((15 : ZMod 17) * 2 ^ ((i : ℕ) * (j : ℕ))
            * cosetPt17 (k : ℕ) ^ (j : ℕ) * lam i) := Finset.sum_comm
    _ = 8 * ∑ j : Fin 8, interpCoef lam j * cosetPt17 (k : ℕ) ^ (j : ℕ) := by
        rw [Finset.mul_sum]
        refine Finset.sum_congr rfl fun j _ => ?_
        rw [interpCoef, Finset.mul_sum, Finset.sum_mul, Finset.mul_sum]
        refine Finset.sum_congr rfl fun i _ => by ring

theorem pts_cross_distinct : ∀ a b : Fin 8,
    cosetPt17 (a : ℕ) ≠ subgroupPt17 (b : ℕ) := by decide

theorem cosetPt17_inj : ∀ a b : Fin 8,
    cosetPt17 (a : ℕ) = cosetPt17 (b : ℕ) → a = b := by decide

theorem subgroupPt17_inj : ∀ a b : Fin 8,
    subgroupPt17 (a : ℕ) = subgroupPt17 (b : ℕ) → a = b := by decide

/-- The MDS property of the `permute17` matrix: every square submatrix is
non-singular. -/
theorem M17_submatrix_det_ne_zero (k : ℕ) (f g : Fin k → Fin 8)
    (hf : Function.Injective f) (hg : Function.Injective g) :
    (M17.submatrix f g).det ≠ 0 := by
  intro hdet
  obtain ⟨v, hv, hmul⟩ := Matrix.exists_mulVec_eq_zero_iff_aux.mpr hdet
  classical
  set lam : Fin 8 → ZMod 17 :=
    fun i => ∑ j0 : Fin k, if g j0 = i then v j0 else 0 with hlam
  have hlam_g : ∀ j0 : Fin k, lam (g j0) = v j0 := by
    intro j0
    show (∑ x : Fin k, if g x = g j0 then v x else 0) = v j0
    rw [Finset.sum_eq_single j0
      (fun b _ hb => if_neg fun hgb => hb (hg hgb))
      (fun h => absurd (Finset.mem_univ j0) h)]
    rw [if_pos rfl]
  have hlam_off : ∀ i : Fin 8, (∀ j0 : Fin k, g j0 ≠ i) → lam i = 0 := by
    intro i hi
    show (∑ j0 : Fin k, if g j0 = i then v j0 else 0) = 0
    exact Finset.sum_eq_zero fun j0 _ => if_neg (hi j0)
  have hrow : ∀ k0 : Fin k, (∑ i : Fin 8, M17 (f k0) i * lam i) = 0 := by
    intro k0
    have h1 : (∑ i : Fin 8, M17 (f k0) i * lam i)
        = ∑ j0 : Fin k, M17 (f k0) (g j0) * v j0 := by
      calc ∑ i : Fin 8, M17 (f k0) i * lam i
          = ∑ i : Fin 8, ∑ j0 : Fin k,
              (if g j0 = i then M17 (f k0) i * v j0 else 0) := by
            refine Finset.sum_congr rfl fun i _ => ?_
            show M17 (f k0) i * (∑ j0 : Fin k, if g j0 = i then v j0 else 0) = _
            rw [Finset.mul_sum]
            refine Finset.sum_congr rfl fun j0 _ => ?_
            by_cases h : g j0 = i
            · rw [if_pos h, if_pos h]
            · rw [if_neg h, if_neg h, mul_zero]
        _ = ∑ j0 : Fin k, ∑ i : Fin 8,
              (if g j0 = i then M17 (f k0) i * v j0 else 0) := Finset.sum_comm
        _ = ∑ j0 : Fin k, M17 (f k0) (g j0) * v j0 :=
            Finset.sum_congr rfl fun j0 _ => Fintype.sum_ite_eq (g j0) _
    rw [h1]
    have h2 := congrFun hmul k0
    simpa [Matrix.mulVec, Matrix.submatrix_apply, Matrix.dotProduct] using h2
  have hPcoset : ∀ k0 : Fin k, (Ppoly lam).eval (cosetPt17 ((f k0 : Fin 8) : ℕ)) = 0 := by
    intro k0
    have h8 : (8 : ZMod 17) * (Ppoly lam).eval (cosetPt17 ((f k0 : Fin 8) : ℕ)) = 0 := by
      rw [← M17_row_eval lam (f k0)]
      exact hrow k0
    exact (mul_eq_zero.mp h8).resolve_left (by decide)
  have hPsub : ∀ i : Fin 8, i ∉ Finset.univ.image g →
      (Ppoly lam).eval (subgroupPt17 (i : ℕ)) = 0 := by
    intro i hi
    rw [Ppoly_eval_subgroup]
    exact hlam_off i fun j0 hj0 =>
      hi (Finset.mem_image.mpr ⟨j0, Finset.mem_univ _, hj0⟩)
  set S : Finset (ZMod 17) :=
    (Finset.univ.image fun k0 : Fin k => cosetPt17 ((f k0 : Fin 8) : ℕ))
      ∪ ((Finset.univ.image g)ᶜ.image fun i : Fin 8 => subgroupPt17 (i : ℕ))
    with hS
  have hk8 : k ≤ 8 := by
    have := Fintype.card_le_of_injective f hf
    simpa using this
  have hinj1 : Function.Injective fun k0 : Fin k => cosetPt17 ((f k0 : Fin 8) : ℕ) := by
    intro a b hab
    exact hf (cosetPt17_inj (f a) (f b) hab)
  have hinj2 : Function.Injective fun i : Fin 8 => subgroupPt17 (i : ℕ) := by
    intro a b hab
    exact subgroupPt17_inj a b hab
  have hdisj : Disjoint
      (Finset.univ.image fun k0 : Fin k => cosetPt17 ((f k0 : Fin 8) : ℕ))
      ((Finset.univ.image g)ᶜ.image fun i : Fin 8 => subgroupPt17 (i : ℕ)) := by
    rw [Finset.disjoint_left]
    intro x hx1 hx2
    obtain ⟨k0, _, rfl⟩ := Finset.mem_image.mp hx1
    obtain ⟨i, _, hxi⟩ := Finset.mem_image.mp hx2
    exact pts_cross_distinct (f k0) i hxi.symm
  have hcard : S.card = 8 := by
    rw [hS, Finset.card_union_of_disjoint hdisj,
      Finset.card_image_of_injective _ hinj1,
      Finset.card_image_of_injective _ hinj2, Finset.card_compl,
      Finset.card_image_of_injective _ hg]
    simp
    omega
  have hzero : ∀ x ∈ S, (Ppoly lam).eval x = 0 := by
    intro x hx
    rw [hS, Finset.mem_union] at hx
    rcases hx with hx | hx
    · obtain ⟨k0, _, rfl⟩ := Finset.mem_image.mp hx
      exact hPcoset k0
    · obtain ⟨i, hi, rfl⟩ := Finset.mem_image.mp hx
      exact hPsub i (Finset.mem_compl.mp hi)
  have hP0 : Ppoly lam = 0 :=
    Polynomial.eq_zero_of_natDegree_lt_card_of_eval_eq_zero' _ S hzero
      (by rw [hcard]; exact Nat.lt_succ_of_le (Ppoly_natDegree_le lam))
  obtain ⟨j0, hj0⟩ := Function.ne_iff.mp hv
  have hev : (Ppoly lam).eval (subgroupPt17 ((g j0 : Fin 8) : ℕ)) = v j0 := by
    rw [Ppoly_eval_subgroup, hlam_g]
  rw [hP0] at hev
  simp only [Polynomial.eval_zero] at hev
  exact hj0 (by simpa using hev.symm)

/-- C3: the linear map computed by `CosetMds::permute_mut` at the supported
width `N = 8` (over `F_17`), expressed as the 8 by 8 matrix `M17`, has every
square submatrix non-singular — it is an MDS matrix. -/
theorem claim_C3_mds_matrix :
    (∀ (s : List (ZMod 17)), s.length = 8 → ∀ k : Fin 8,
        (permute17 s).getD (k : ℕ) 0 = ∑ i : Fin 8, M17 k i * s.getD (i : ℕ) 0)
      ∧ ∀ (k : ℕ) (f g : Fin k → Fin 8), Function.Injective f →
          Function.Injective g → (M17.submatrix f g).det ≠ 0 := by
  constructor
  · intro s hs k
    rw [permute17_eq_mulVecM17 s hs, mulVecM17,
      List.getD_eq_getElem _ _ (by simpa using k.isLt), List.getElem_map,
      List.getElem_range]
    rfl
  · exact M17_submatrix_det_ne_zero

theorem claim_C3_witness :
    ((permute17 [1, 0, 0, 0, 0, 0, 0, 0]).getD 0 0
        = ∑ i : Fin 8, M17 0 i * ([1, 0, 0, 0, 0, 0, 0, 0] : List (ZMod 17)).getD (i : ℕ) 0)
      ∧ (M17.submatrix (fun x : Fin 2 => if x = 0 then 0 else 3)
          (fun x : Fin 2 => if x = 0 then 2 else 5)).det ≠ 0 :=
  ⟨claim_C3_mds_matrix.1 _ (by decide) 0,
   claim_C3_mds_matrix.2 2 _ _ (by decide) (by decide)⟩

/-! ### Layer structure claim C5 -/

/-- The `hi` position a butterfly instruction writes. -/
def BflyOp.hiIdx {F : Type} : BflyOp F → ℕ
  | .tf hi _ => hi
  | .dif hi _ _ => hi
  | .dit hi _ _ => hi

/-- Whether an instruction is the twiddle-free butterfly. -/
def BflyOp.isTwiddleFree {F : Type} : BflyOp F → Bool
  | .tf _ _ => true
  | _ => false

/-- Reference form of a Bowers G layer: block 0 entirely twiddle-free, each
later block `b` entirely decimation-in-frequency with `twiddles[b]`. -/
def g_layer_ops_spec {F : Type} [CommRing F] (N log_half_block_size : ℕ)
    (twiddles : List F) : List (BflyOp F) :=
  ((List.range (2 ^ log_half_block_size)).map fun hi =>
      BflyOp.tf hi (hi + 2 ^ log_half_block_size))
    ++ (List.range' 1 (N / 2 ^ (log_half_block_size + 1) - 1)).flatMap fun b =>
        (List.range' (b * 2 ^ (log_half_block_size + 1))
            (2 ^ log_half_block_size)).map fun hi =>
          BflyOp.dif hi (hi + 2 ^ log_half_block_size) (twiddles.getD b 0)

/-- Reference form of a Bowers G^T layer: block 0 entirely twiddle-free, each
later block `b` entirely decimation-in-time with `twiddles[b]`. -/
def g_t_layer_ops_spec {F : Type} [CommRing F] (N log_half_block_size : ℕ)
    (twiddles : List F) : List (BflyOp F) :=
  ((List.range (2 ^ log_half_block_size)).map fun hi =>
      BflyOp.tf hi (hi + 2 ^ log_half_block_size))
    ++ (List.range' 1 (N / 2 ^ (log_half_block_size + 1) - 1)).flatMap fun b =>
        (List.range' (b * 2 ^ (log_half_block_size + 1))
            (2 ^ log_half_block_size)).map fun hi =>
          BflyOp.dit hi (hi + 2 ^ log_half_block_size) (twiddles.getD b 0)

theorem zip_range'_getD {F : Type} [CommRing F] :
    ∀ (m s : ℕ) (l : List F), s + m ≤ l.length →
      (List.range' s m).zip (l.drop s)
        = (List.range' s m).map fun b => (b, l.getD b 0) := by
  intro m
  induction m with
  | zero => intro s l h; rfl
  | succ n ih =>
      intro s l h
      have hs : s < l.length := by omega
      rw [List.range'_succ, List.drop_eq_getElem_cons hs, List.zip_cons_cons,
        List.map_cons, List.getD_eq_getElem l 0 hs]
      exact congrArg _ (ih (s + 1) l (by omega))

/-- C5 (amended): with a twiddle table covering all blocks, the instruction
list of each layer is exactly: block 0 processed with the twiddle-free
butterfly, and every later block `b` processed with the twiddled butterfly
(DIF in the forward network, DIT in the inverse network) using that block's
twiddle `twiddles[b]`. -/
theorem claim_C5_amended_layer_structure {F : Type} [CommRing F]
    (N log_half_block_size : ℕ) (twiddles : List F)
    (htw : N / 2 ^ (log_half_block_size + 1) ≤ twiddles.length) :
    bowers_g_layer_ops N log_half_block_size twiddles
        = g_layer_ops_spec N log_half_block_size twiddles
      ∧ bowers_g_t_layer_ops N log_half_block_size twiddles
        = g_t_layer_ops_spec N log_half_block_size twiddles := by
  have hzip : (List.range' 1 (N / 2 ^ (log_half_block_size + 1) - 1)).zip (twiddles.drop 1)
      = (List.range' 1 (N / 2 ^ (log_half_block_size + 1) - 1)).map
          fun b => (b, twiddles.getD b 0) := by
    generalize hq : N / 2 ^ (log_half_block_size + 1) = nb at htw ⊢
    by_cases hnb : nb = 0
    · rw [hnb]
      rfl
    · exact zip_range'_getD _ 1 twiddles (by omega)
  constructor
  · rw [bowers_g_layer_ops, g_layer_ops_spec, hzip, List.flatMap_map]
  · rw [bowers_g_t_layer_ops, g_t_layer_ops_spec, hzip, List.flatMap_map]

theorem claim_C5_witness :
    bowers_g_layer_ops 8 1 mds17.fft_twiddles = g_layer_ops_spec 8 1 mds17.fft_twiddles
      ∧ bowers_g_t_layer_ops 8 1 mds17.ifft_twiddles
        = g_t_layer_ops_spec 8 1 mds17.ifft_twiddles :=
  ⟨(claim_C5_amended_layer_structure 8 1 mds17.fft_twiddles (by decide)).1,
   (claim_C5_amended_layer_structure 8 1 mds17.ifft_twiddles (by decide)).2⟩

/-- C5 counterexample: in the width-4, block-size-2 layer the second block's
first half-block (position 2) is processed with the decimation-in-frequency
butterfly, not the twiddle-free one — refuting the claim that the first
half-block of each block is twiddle-free. -/
theorem claim_C5_counterexample :
    ¬ ∀ op ∈ bowers_g_layer_ops 4 0 [(1 : ZMod 17), 4],
        ∀ b, b < 4 / 2 ^ (0 + 1) →
          (BflyOp.hiIdx op / 2 ^ (0 + 1) = b
            ∧ BflyOp.hiIdx op % 2 ^ (0 + 1) < 2 ^ 0) →
          BflyOp.isTwiddleFree op = true := by
  decide

/-! ### Constructor claims C6 and C7 -/

theorem log2N_two_pow (k : ℕ) : log2N (2 ^ k) = k := by
  rw [log2N_eq, Nat.log2_eq_log_two, Nat.log_pow (by norm_num)]

/-- C6: constructing a `CosetMds` (here over `F_17`) succeeds exactly when the
width is a power of two; otherwise `log2_strict` aborts the construction. -/
theorem claim_C6_construction_power_of_two (N : ℕ) :
    (cosetMdsDefault N twoAdicGen17 gen17).isSome ↔ ∃ k, N = 2 ^ k := by
  rw [cosetMdsDefault, log2_strict]
  by_cases h : 2 ^ log2N N = N
  · rw [if_pos h]
    simp only [Option.map_some', Option.isSome_some, true_iff]
    exact ⟨log2N N, h.symm⟩
  · rw [if_neg h]
    simp only [Option.map_none', Option.isSome_none]
    constructor
    · intro hfalse
      exact absurd hfalse (by simp)
    · rintro ⟨k, rfl⟩
      exact absurd (by rw [log2N_two_pow]) h

theorem powersTake_length {F : Type} [CommRing F] (x : F) (n : ℕ) :
    (powersTake x n).length = n := by
  rw [powersTake, List.length_map, List.length_range]

theorem powersTake_getD {F : Type} [CommRing F] (x : F) (n j : ℕ) (hj : j < n) :
    (powersTake x n).getD j 0 = x ^ j := by
  rw [powersTake, List.getD_eq_getElem _ _ (by simpa [powersTake] using hj),
    List.getElem_map, List.getElem_range]

theorem reverse_slice_length {F : Type} [CommRing F] (l : List F) :
    (reverse_slice_index_bits l).length = l.length := by
  rw [reverse_slice_index_bits, List.length_map, List.length_range]

theorem reverse_slice_getD {F : Type} [CommRing F] (l : List F) (i : ℕ)
    (hi : i < l.length) :
    (reverse_slice_index_bits l).getD i 0
      = l.getD (bitRev (log2N l.length) i) 0 := by
  rw [reverse_slice_index_bits,
    List.getD_eq_getElem _ _ (by simpa [reverse_slice_index_bits] using hi),
    List.getElem_map, List.getElem_range]

theorem bitRev_lt (bits : ℕ) : ∀ i, bitRev bits i < 2 ^ bits := by
  induction bits with
  | zero =>
      intro i
      simp [bitRev]
  | succ b ih =>
      intro i
      have h1 : bitRev b (i / 2) < 2 ^ b := ih (i / 2)
      have h3 : (2 : ℕ) ^ (b + 1) = 2 ^ b * 2 := by rw [Nat.pow_succ]
      rcases Nat.mod_two_eq_zero_or_one i with h | h <;> rw [bitRev, h] <;> omega

theorem log2_strict_two_pow (k : ℕ) : log2_strict (2 ^ k) = some k := by
  rw [log2_strict, log2N_two_pow, if_pos rfl]

/-- C7: for every power-of-two width `2^k` the constructor succeeds and
produces the first `N/2` powers of the order-`N` two-adic generator in
bit-reversed order as forward twiddles, the powers of its inverse in
bit-reversed order as inverse twiddles, and the first `N` powers of the
multiplicative generator (the coset shift) in bit-reversed order as
weights. -/
theorem claim_C7_constructor_tables {F : Type} [Field F]
    (two_adic_generator : ℕ → F) (generator : F) (k : ℕ) :
    ∃ m : CosetMdsL F,
      cosetMdsDefault (2 ^ k) two_adic_generator generator = some m
        ∧ m.fft_twiddles.length = 2 ^ k / 2
        ∧ m.ifft_twiddles.length = 2 ^ k / 2
        ∧ m.weights.length = 2 ^ k
        ∧ (∀ i, i < 2 ^ k / 2 → m.fft_twiddles.getD i 0
            = two_adic_generator k ^ bitRev (log2N (2 ^ k / 2)) i)
        ∧ (∀ i, i < 2 ^ k / 2 → m.ifft_twiddles.getD i 0
            = (two_adic_generator k)⁻¹ ^ bitRev (log2N (2 ^ k / 2)) i)
        ∧ ∀ i, i < 2 ^ k → m.weights.getD i 0 = generator ^ bitRev k i := by
  refine ⟨_, by rw [cosetMdsDefault, log2_strict_two_pow, Option.map_some'], ?_, ?_, ?_, ?_, ?_, ?_⟩
  · rw [reverse_slice_length, powersTake_length]
  · rw [reverse_slice_length, powersTake_length]
  · rw [reverse_slice_length, powersTake_length]
  · intro i hi
    have hlen : (powersTake (two_adic_generator k) (2 ^ k / 2)).length = 2 ^ k / 2 :=
      powersTake_length _ _
    rw [reverse_slice_getD _ _ (by rw [hlen]; exact hi), hlen]
    have hk : ∃ j, k = j + 1 := by
      cases k with
      | zero => simp at hi
      | succ j => exact ⟨j, rfl⟩
    obtain ⟨j, rfl⟩ := hk
    have hhalf : 2 ^ (j + 1) / 2 = 2 ^ j := by
      rw [Nat.pow_succ, Nat.mul_div_cancel _ (by norm_num)]
    rw [powersTake_getD _ _ _ (by rw [hhalf, log2N_two_pow]; exact bitRev_lt j i)]
  · intro i hi
    have hlen : (powersTake (two_adic_generator k)⁻¹ (2 ^ k / 2)).length = 2 ^ k / 2 :=
      powersTake_length _ _
    rw [reverse_slice_getD _ _ (by rw [hlen]; exact hi), hlen]
    have hk : ∃ j, k = j + 1 := by
      cases k with
      | zero => simp at hi
      | succ j => exact ⟨j, rfl⟩
    obtain ⟨j, rfl⟩ := hk
    have hhalf : 2 ^ (j + 1) / 2 = 2 ^ j := by
      rw [Nat.pow_succ, Nat.mul_div_cancel _ (by norm_num)]
    rw [powersTake_getD _ _ _ (by rw [hhalf, log2N_two_pow]; exact bitRev_lt j i)]
  · intro i hi
    have hlen : (powersTake generator (2 ^ k)).length = 2 ^ k :=
      powersTake_length _ _
    rw [reverse_slice_getD _ _ (by rw [hlen]; exact hi), hlen, log2N_two_pow,
      powersTake_getD _ _ _ (bitRev_lt _ i)]

theorem claim_C7_witness :
    mds17.fft_twiddles.getD 1 0 = twoAdicGen17 3 ^ bitRev (log2N (2 ^ 3 / 2)) 1 := by
  obtain ⟨m, hm, _, _, _, hf, _, _⟩ :=
    claim_C7_constructor_tables twoAdicGen17 gen17 3
  have hmm : m = mds17 := Option.some.inj (hm.symm.trans mds17_default)
  rw [← hmm]
  exact hf 1 (by decide)

theorem claim_C8_witness :
    diffusionMapF shifts16
        (vadd (vsmul 2 (castList [1, 2, 3, 4, 5, 6, 7, 8, 9, 10, 11, 12, 13, 14, 15, 16]))
          (vsmul 3 (castList [2, 0, 1, 5, 4, 3, 9, 8, 7, 6, 11, 10, 15, 14, 13, 12])))
      = vadd
          (vsmul 2 (diffusionMapF shifts16
            (castList [1, 2, 3, 4, 5, 6, 7, 8, 9, 10, 11, 12, 13, 14, 15, 16])))
          (vsmul 3 (diffusionMapF shifts16
            (castList [2, 0, 1, 5, 4, 3, 9, 8, 7, 6, 11, 10, 15, 14, 13, 12])))
      ∧ permute17 (vadd (vsmul 2 [1, 2, 3, 4, 5, 6, 7, 0]) (vsmul 3 [0, 1, 1, 2, 3, 5, 8, 13]))
          = vadd (vsmul 2 (permute17 [1, 2, 3, 4, 5, 6, 7, 0]))
              (vsmul 3 (permute17 [0, 1, 1, 2, 3, 5, 8, 13])) :=
  ⟨claim_C8_linearity.1 2 3 _ _ (by decide) (by decide),
   claim_C8_linearity.2.2 2 3 _ _ (by decide) (by decide)⟩

